import Mathlib

/-!
# godu: the folder walker (`files/file_walker.go`)

A shallow embedding of the tree model (`File`, `Path`, `UpdateSize`) and of the
walker (`ignoringReadDir`, `walkSubFolderConcurrently`, `updateProgress`,
`WalkFolder`), followed by the properties of the walker that are proved about it.

Modelling conventions.

* `int64` sizes are integers; the additions of `UpdateSize` wrap (`wrap64`).
* Strings are lists of characters. The functions of `path/filepath` that the
  walker calls (`Join`, `Split`, and `Clean` inside `Join`) are written out for
  the separator `/`; `Clean` works on the components of a path.
* A `*File` parent pointer is only ever read by `Path`, which reads the `Name`
  and `Parent` of the node it points to. The pointer is therefore represented
  by the upward view `Up` of the node it points to (its name and its own
  parent, recursively); `nil` is `none`. A method that updates a node returns
  the updated node.
* `nil` and empty slices are both the empty list.
* The goroutines of one directory append their sub folder to `result.Files`
  at an unknown later moment. A file entry is appended inside the loop, so it
  precedes every entry that follows it in the listing; a sub folder may end up
  anywhere among the entries that follow it and anywhere relative to the sub
  folders that precede it. A schedule `sched` gives the position at which the
  sub folder of a path is inserted among the entries that follow it; every
  theorem holds for every schedule.
* The listing function may have effects; the effect kept here is the log of
  the paths on which the underlying listing function has been called. The
  values sent on `progress` are collected in a list. What is written to the
  standard logger and to the standard output is left out, and so are the
  wait group and the mutex, whose work is done once `WalkFolder` calls
  `UpdateSize`.
* The channel `c` bounds the goroutines that run at the same time; it has no
  effect on the tree and is modelled on its own, as a step function.
* Recursion depth is bounded by a fuel argument; `none` means out of fuel.
-/

namespace Godu

/-! ## Paths (`path/filepath`, Unix) -/

/-- Splitting of a path at every separator; empty components are kept. -/
def splitSlash : List Char → List (List Char)
  | [] => [[]]
  | c :: cs =>
    if c = '/' then [] :: splitSlash cs
    else
      match splitSlash cs with
      | [] => [[c]]
      | x :: xs => (c :: x) :: xs

/-- Joining of components with the separator. -/
def joinSlash : List (List Char) → List Char
  | [] => []
  | [x] => x
  | x :: y :: ys => x ++ '/' :: joinSlash (y :: ys)

/-- One step of `filepath.Clean` on the stack of components written so far
(kept in reverse): `.` and empty components are skipped, `..` removes the
last component that is not itself `..`, is kept in a relative path that has
nothing to remove, and is dropped at the root. -/
def cleanStep (rooted : Bool) (stack : List (List Char)) (comp : List Char) :
    List (List Char) :=
  if comp = [] ∨ comp = ['.'] then stack
  else if comp = ['.', '.'] then
    match stack with
    | [] => if rooted then [] else [comp]
    | top :: below => if top = ['.', '.'] then comp :: top :: below else below
  else comp :: stack

/-- The function `filepath.Clean` on lists of characters. -/
def cleanChars (path : List Char) : List Char :=
  if path = [] then ['.']
  else
    let rooted : Bool := path.head? = some '/'
    let stack := ((splitSlash path).foldl (cleanStep rooted) []).reverse
    if rooted then '/' :: joinSlash stack
    else if stack = [] then ['.'] else joinSlash stack

/-- The function `filepath.Clean`. -/
def Clean (path : String) : String := String.mk (cleanChars path.data)

/-- The function `filepath.Join` for two elements: empty elements are ignored,
the others are joined with the separator and the result is cleaned. -/
def Join (a b : String) : String :=
  if a ≠ "" then Clean (String.mk (a.data ++ '/' :: b.data))
  else if b ≠ "" then Clean b
  else ""

/-- The part of a path after its last separator. -/
def baseChars : List Char → List Char
  | [] => []
  | c :: cs => if '/' ∈ cs then baseChars cs else if c = '/' then cs else c :: cs

/-- The function `filepath.Split`: the path up to and including its last separator,
and the rest. -/
def Split (path : String) : String × String :=
  let file := baseChars path.data
  (String.mk (path.data.take (path.data.length - file.length)), String.mk file)

/-- A file name: not empty, without separator, and neither `.` nor `..`. -/
def validName (n : String) : Bool :=
  decide (n.data ≠ [] ∧ '/' ∉ n.data ∧ n.data ≠ ['.'] ∧ n.data ≠ ['.', '.'])

/-- The stack of components of `filepath.Clean` after the whole path is read. -/
def stackOf (rooted : Bool) (path : List Char) : List (List Char) :=
  (splitSlash path).foldl (cleanStep rooted) []

/-- The string that `filepath.Clean` writes for a stack of components. -/
def render (rooted : Bool) (stack : List (List Char)) : List Char :=
  if rooted then '/' :: joinSlash stack.reverse
  else if stack.reverse = [] then ['.'] else joinSlash stack.reverse

/-- The stacks that `filepath.Clean` can reach: the components are not empty,
hold no separator and are not `.`, and `..` components are at the bottom of
the stack of a path that is not rooted. -/
inductive NormalStack (rooted : Bool) : List (List Char) → Prop
  | nil : NormalStack rooted []
  | dotdot (stack : List (List Char)) : rooted = false → NormalStack rooted stack →
      (∀ c ∈ stack, c = ['.', '.']) → NormalStack rooted (['.', '.'] :: stack)
  | name (c : List Char) (stack : List (List Char)) : c ≠ [] → '/' ∉ c → c ≠ ['.'] →
      c ≠ ['.', '.'] → NormalStack rooted stack → NormalStack rooted (c :: stack)

/-! ## The tree model -/

/-- What a parent pointer shows of the node it points to: `Name` and `Parent`. -/
inductive Up where
  | mk (Name : String) (Parent : Option Up)

/-- The struct `File`. -/
inductive File where
  | mk (Name : String) (Parent : Option Up) (Size : Int) (IsDir : Bool) (Files : List File)

namespace File

/-- Field `Name`. -/
def Name : File → String
  | mk n _ _ _ _ => n

/-- Field `Parent`. -/
def Parent : File → Option Up
  | mk _ p _ _ _ => p

/-- Field `Size`. -/
def Size : File → Int
  | mk _ _ s _ _ => s

/-- Field `IsDir`. -/
def IsDir : File → Bool
  | mk _ _ _ d _ => d

/-- Field `Files`. -/
def Files : File → List File
  | mk _ _ _ _ fs => fs

end File

/-- The method `Path` followed through parent pointers. -/
def Up.Path : Up → String
  | .mk n none => n
  | .mk n (some p) => Join p.Path n

/-- The upward view of a node. -/
def File.up (f : File) : Up := .mk f.Name f.Parent

/-- The method `File.Path`. -/
def File.Path (f : File) : String := f.up.Path

/-- The value `&File{}`. -/
def File.zero : File := .mk "" none 0 false []

/-- Wrap-around of `int64` arithmetic. -/
def wrap64 (x : Int) : Int := (x + 2 ^ 63) % 2 ^ 64 - 2 ^ 63

/-- The loop variable `size` of `UpdateSize` after the children in the list,
which have been updated already, are added to `acc`. -/
def accSize (acc : Int) : List File → Int
  | [] => acc
  | child :: rest => accSize (wrap64 (acc + child.Size)) rest

mutual
/-- The method `File.UpdateSize`; the updated node is returned. -/
def File.UpdateSize : File → File
  | .mk n p s d fs =>
    if !d then .mk n p s d fs
    else
      let fs1 := UpdateSizeList fs
      .mk n p (accSize 0 fs1) d fs1
/-- The calls `child.UpdateSize()` of the loop of `UpdateSize`. -/
def UpdateSizeList : List File → List File
  | [] => []
  | child :: rest => child.UpdateSize :: UpdateSizeList rest
end

/-! ## The walker -/

/-- What the walker reads of an `os.FileInfo`. -/
structure FileInfo where
  Name : String
  Size : Int
  IsDir : Bool

/-- The type `ReadDir`: a listing or an error, with the log of the calls of the
underlying listing function threaded through. -/
abbrev ReadDir := String → List String → Except String (List FileInfo) × List String

/-- The type `ShouldIgnoreFolder`. -/
abbrev ShouldIgnoreFolder := String → Bool

/-- A file system snapshot: the listing, or the error, of every path. -/
abbrev Snapshot := String → Except String (List FileInfo)

/-- The listing function of a snapshot; every call is logged. -/
def Snapshot.readDir (fs : Snapshot) : ReadDir :=
  fun path log => (fs path, log ++ [path])

/-- The function `ignoringReadDir`. -/
def ignoringReadDir (shouldIgnore : ShouldIgnoreFolder) (originalReadDir : ReadDir) : ReadDir :=
  fun path log =>
    if shouldIgnore path then (.ok [], log)
    else originalReadDir path log

/-- The function `updateProgress`: the values it sends. -/
def updateProgress (count : Int) : List Int :=
  if count > 0 then [count] else []

/-- The slice `result.Files` after a sub folder has been appended to it by its
goroutine, `old` being the entries that follow it in the listing. -/
def insertAt (k : Nat) (subFolder : File) (old : List File) : List File :=
  old.take k ++ subFolder :: old.drop k

/-- What a call of the walker leaves behind: the node it returns, the log of
the underlying listing function and the values sent on `progress`. -/
structure Walked where
  file : File
  log : List String
  progress : List Int

/-- What the loop over the entries leaves behind: `result.Files`, the log, the
values sent by the sub folders and `numSubFolders`. -/
structure Looped where
  files : List File
  log : List String
  progress : List Int
  numSubFolders : Int

/-- The loop over the entries in `walkSubFolderConcurrently`; `walkSub` is the
recursive call in the goroutine. -/
def walkEntries (sched : String → Nat) (walkSub : String → Option Up → List String → Option Walked)
    (path : String) (result : Up) : List FileInfo → List String → Option Looped
  | [], log => some ⟨[], log, [], 0⟩
  | entry :: rest, log =>
    if entry.IsDir then
      let subFolderPath := Join path entry.Name
      match walkSub subFolderPath (some result) log with
      | none => none
      | some sub =>
        match walkEntries sched walkSub path result rest sub.log with
        | none => none
        | some r =>
          some ⟨insertAt (sched subFolderPath) sub.file r.files, r.log,
            sub.progress ++ r.progress, r.numSubFolders + 1⟩
    else
      match walkEntries sched walkSub path result rest log with
      | none => none
      | some r =>
        some ⟨File.mk entry.Name (some result) entry.Size false [] :: r.files, r.log,
          r.progress, r.numSubFolders⟩

/-- The function `walkSubFolderConcurrently`. -/
def walkSubFolderConcurrently (sched : String → Nat) (readDir : ReadDir) :
    Nat → String → Option Up → List String → Option Walked
  | 0, _, _, _ => none
  | fuel + 1, path, parent, log =>
    match readDir path log with
    | (.error _, log1) => some ⟨File.zero, log1, []⟩
    | (.ok entries, log1) =>
      let name := if parent.isSome then (Split path).2 else Join (Split path).1 (Split path).2
      match walkEntries sched (walkSubFolderConcurrently sched readDir fuel) path
          (Up.mk name parent) entries log1 with
      | none => none
      | some r =>
        some ⟨File.mk name parent 0 true r.files, r.log,
          r.progress ++ updateProgress r.numSubFolders⟩

/-- The function `WalkFolder`. -/
def WalkFolder (sched : String → Nat) (fuel : Nat) (path : String) (readDir : ReadDir)
    (ignoreFunction : ShouldIgnoreFolder) : Option Walked :=
  match walkSubFolderConcurrently sched (ignoringReadDir ignoreFunction readDir) fuel path none [] with
  | none => none
  | some w => some ⟨w.file.UpdateSize, w.log, w.progress⟩

/-! ## Relations between trees -/

mutual
/-- All nodes of a tree, the root first. -/
def File.nodes : File → List File
  | .mk n p s d fs => .mk n p s d fs :: nodesList fs
/-- All nodes of a list of trees. -/
def nodesList : List File → List File
  | [] => []
  | f :: rest => f.nodes ++ nodesList rest
end

/-- Sum of the `Size` fields of a list of nodes. -/
def sumSizes (fs : List File) : Int := (fs.map File.Size).sum

mutual
/-- Two trees that differ only by the order of the `Files` lists of their nodes. -/
def File.PermEq : File → File → Prop
  | .mk n p s d fs, g =>
    n = g.Name ∧ p = g.Parent ∧ s = g.Size ∧ d = g.IsDir ∧
      ∃ gs, gs.Perm g.Files ∧ PermEqList fs gs
/-- Lists of trees that are pairwise `PermEq`. -/
def PermEqList : List File → List File → Prop
  | [], gs => gs = []
  | f :: fs, gs =>
    match gs with
    | [] => False
    | g :: rest => f.PermEq g ∧ PermEqList fs rest
end

mutual
/-- The second tree is the first one with, at most, other `Size` fields at
nodes with `IsDir = true`: same shape, same order of children, same `Name`,
`Parent` and `IsDir` at every node, same `Size` at every node that is not a
directory. -/
def File.Framed : File → File → Prop
  | .mk n p s d fs, g =>
    g.Name = n ∧ g.Parent = p ∧ g.IsDir = d ∧ (d = false → g.Size = s) ∧ FramedList fs g.Files
/-- Lists of trees that are pairwise `Framed`. -/
def FramedList : List File → List File → Prop
  | [], gs => gs = []
  | f :: fs, gs =>
    match gs with
    | [] => False
    | g :: rest => f.Framed g ∧ FramedList fs rest
end

/-- Every node that is not a directory has no children. -/
def File.LeavesChildless (f : File) : Prop :=
  ∀ n ∈ f.nodes, n.IsDir = false → n.Files = []

/-! ## Progress accounting -/

/-- The number of sub folders in a listing. -/
def subFolders (entries : List FileInfo) : Nat := entries.countP (fun e => e.IsDir)

/-- The number of directory entries found by listing recursively from `path`:
every directory entry of a listing that is read counts, and so do the
directory entries found below it. -/
def countDirs (fs : Snapshot) : Nat → String → Nat
  | 0, _ => 0
  | fuel + 1, path =>
    match fs path with
    | .error _ => 0
    | .ok entries =>
      (entries.map (fun e => if e.IsDir then 1 + countDirs fs fuel (Join path e.Name) else 0)).sum

/-- What a directory that is read sends: one value, the number of sub folders
in its listing, and nothing when there is none or the listing fails. -/
def sentBy (fs : Snapshot) (path : String) : List Int :=
  match fs path with
  | .error _ => []
  | .ok entries => if subFolders entries = 0 then [] else [(subFolders entries : Int)]

/-! ## The tree as a mirror of the snapshot -/

/-- The listing that the walker gets for a path: that of the snapshot, and the
empty listing for an ignored folder. -/
def listing (fs : Snapshot) (ign : ShouldIgnoreFolder) (path : String) :
    Except String (List FileInfo) :=
  if ign path then .ok [] else fs path

/-- Every directory entry of every listing has a file name as its name. -/
def Snapshot.WellNamed (fs : Snapshot) : Prop :=
  ∀ p es, fs p = .ok es → ∀ e ∈ es, e.IsDir = true → validName e.Name = true

/-- What the walker writes into a node: `Name`, `Parent`, `IsDir`, and the
`Size` of a node that is not a directory. -/
structure Skeleton where
  Name : String
  Parent : Option Up
  IsDir : Bool
  Size : Int

/-- The skeleton of a node. -/
def File.skeleton (f : File) : Skeleton :=
  ⟨f.Name, f.Parent, f.IsDir, if f.IsDir then 0 else f.Size⟩

/-- The skeleton of the node that stands for the entry `e` of the listing of
`path`, `up` being what a pointer to the node of `path` shows: a file has the
name and size of its entry, a folder the name of its entry, both have the
node of `path` as parent; a folder whose listing fails is `&File{}`. -/
def expected (fs : Snapshot) (ign : ShouldIgnoreFolder) (up : Up) (path : String)
    (e : FileInfo) : Skeleton :=
  if e.IsDir then
    match listing fs ign (Join path e.Name) with
    | .error _ => ⟨"", none, false, 0⟩
    | .ok _ => ⟨e.Name, some up, true, 0⟩
  else ⟨e.Name, some up, false, e.Size⟩

/-- Every directory node among the nodes of `files` has, up to their order, one
child for every entry of the listing of its `Path`. -/
def MirrorsBelow (fs : Snapshot) (ign : ShouldIgnoreFolder) (files : List File) : Prop :=
  ∀ m ∈ nodesList files, m.IsDir = true →
    ∃ es, listing fs ign m.Path = .ok es ∧
      (m.Files.map File.skeleton).Perm (es.map (expected fs ign m.up m.Path))

/-- The paths that listing recursively from the root reaches: the root, and
every directory entry of the listing of a path that is reached. Nothing is
reached through a folder that is ignored or whose listing fails. -/
inductive Reached (fs : Snapshot) (ign : ShouldIgnoreFolder) (root : String) : String → Prop
  | root : Reached fs ign root root
  | step (p : String) (es : List FileInfo) (e : FileInfo) : Reached fs ign root p →
      listing fs ign p = .ok es → e ∈ es → e.IsDir = true → Reached fs ign root (Join p e.Name)

/-! ## Completeness -/

/-- The paths of the entries that are not directories and that listing
recursively from `path` finds; nothing is found under a folder that is ignored
or whose listing fails. -/
def reachableFiles (fs : Snapshot) (ign : ShouldIgnoreFolder) : Nat → String → List String
  | 0, _ => []
  | fuel + 1, path =>
    match listing fs ign path with
    | .error _ => []
    | .ok es =>
      es.flatMap (fun e =>
        if e.IsDir then reachableFiles fs ign fuel (Join path e.Name) else [Join path e.Name])

/-- A node that stands for a file: `IsDir = false` and a parent. -/
def File.IsFile (n : File) : Prop := n.IsDir = false ∧ ∃ up, n.Parent = some up

/-- The `Path()` of every node with `IsDir = false`. -/
def File.leafPaths (f : File) : List String :=
  (f.nodes.filter (fun n => !n.IsDir)).map File.Path

/-! ## Failing listings -/

/-- A finite snapshot: every folder found in the listing of a path is less
high than that path. -/
def Shallow (fs : Snapshot) (ign : ShouldIgnoreFolder) (height : String → Nat) : Prop :=
  ∀ p es, listing fs ign p = .ok es → ∀ e ∈ es, e.IsDir = true →
    height (Join p e.Name) < height p

mutual
/-- The tree in which `&File{}` stands for every directory node with the path `d`. -/
def File.blank (d : String) : File → File
  | .mk n p s dir fs =>
    if dir = true ∧ (Up.mk n p).Path = d then File.zero
    else .mk n p s dir (blankList d fs)
/-- The trees of a list, each with `&File{}` for its directory nodes with the path `d`. -/
def blankList (d : String) : List File → List File
  | [] => []
  | f :: rest => f.blank d :: blankList d rest
end

/-- The tree in which `&File{}` stands for every directory node with the path `d`
below the root. -/
def File.blankBelow (d : String) (f : File) : File :=
  .mk f.Name f.Parent f.Size f.IsDir (blankList d f.Files)

mutual
/-- The first tree is the second one outside of the folder `d`: `&File{}` stands
for every directory node with the path `d`, every other node has the same
`Name`, `Parent` and `IsDir`, as many children, in the same order, that are so
related again, and the same `Size` when no directory node beneath it has the
path `d`. -/
def File.Outside (d : String) : File → File → Prop
  | t1, .mk n p s dir fs =>
    if dir = true ∧ (Up.mk n p).Path = d then t1 = File.zero
    else
      t1.Name = n ∧ t1.Parent = p ∧ t1.IsDir = dir ∧
      ((∀ c ∈ nodesList fs, ¬ (c.IsDir = true ∧ c.Path = d)) → t1.Size = s) ∧
      OutsideList d t1.Files fs
/-- Lists of trees that are pairwise `Outside`. -/
def OutsideList (d : String) : List File → List File → Prop
  | l1, [] => l1 = []
  | l1, g :: gs => ∃ f fs1, l1 = f :: fs1 ∧ f.Outside d g ∧ OutsideList d fs1 gs
end

/-- The relation `Outside` for two roots, of which the second is not the folder `d`. -/
def File.OutsideBelow (d : String) (t1 t2 : File) : Prop :=
  t1.Name = t2.Name ∧ t1.Parent = t2.Parent ∧ t1.IsDir = t2.IsDir ∧
  ((∀ c ∈ nodesList t2.Files, ¬ (c.IsDir = true ∧ c.Path = d)) → t1.Size = t2.Size) ∧
  OutsideList d t1.Files t2.Files

/-! ## The channel `c` as a semaphore -/

/-- Where a goroutine started by `walkSubFolderConcurrently` is: before its
`c <- true`, between its `c <- true` and its `<-c`, or past its `<-c`. -/
inductive Phase where
  | waiting
  | active
  | finished
  deriving DecidableEq

/-- The state of a walk as far as the channel `c` is concerned: the number of
values in the buffer of `c` and the goroutines started so far. -/
structure Slots where
  buffered : Nat
  tasks : List Phase

/-- The steps of the goroutines that touch `c`: `go func()` in the first call of
`walkSubFolderConcurrently` (`none`) or in the call made by an active goroutine,
the completion of `c <- true` and the completion of `<-c` of a goroutine. -/
inductive Event where
  | spawn (parent : Option Nat)
  | send (task : Nat)
  | receive (task : Nat)

/-- One step. A send on `c` completes only while the buffer of `c`, of the given
capacity, is not full; a receive only while it is not empty. -/
def Slots.step (capacity : Nat) (s : Slots) : Event → Option Slots
  | .spawn none => some ⟨s.buffered, s.tasks ++ [Phase.waiting]⟩
  | .spawn (some parent) =>
    if s.tasks.get? parent = some Phase.active then
      some ⟨s.buffered, s.tasks ++ [Phase.waiting]⟩
    else none
  | .send task =>
    if s.tasks.get? task = some Phase.waiting ∧ s.buffered < capacity then
      some ⟨s.buffered + 1, s.tasks.set task Phase.active⟩
    else none
  | .receive task =>
    if s.tasks.get? task = some Phase.active ∧ 0 < s.buffered then
      some ⟨s.buffered - 1, s.tasks.set task Phase.finished⟩
    else none

/-- An execution: the steps one after the other, from a state. -/
def Slots.run (capacity : Nat) (s : Slots) : List Event → Option Slots
  | [] => some s
  | ev :: rest =>
    match s.step capacity ev with
    | none => none
    | some s1 => s1.run capacity rest

/-- The number of goroutines between their `c <- true` and their `<-c`. -/
def Slots.activeTasks (s : Slots) : Nat := s.tasks.count Phase.active

/-- The state in which `WalkFolder` makes the channel: `make(chan bool, 2*runtime.NumCPU())`. -/
def Slots.init : Slots := ⟨0, []⟩

/-! ## Example snapshots -/

/-- The root `/r` holds the file `a` (10 bytes) and the folder `b`, which holds
the file `c` (20 bytes). -/
def exampleFs : Snapshot := fun p =>
  if p = "/r" then .ok [⟨"a", 10, false⟩, ⟨"b", 4096, true⟩]
  else if p = "/r/b" then .ok [⟨"c", 20, false⟩]
  else .error "not a directory"

/-- The ignore function that ignores nothing. -/
def ignoreNothing : ShouldIgnoreFolder := fun _ => false

/-- The schedule in which every sub folder is appended at once. -/
def atOnce : String → Nat := fun _ => 0

/-- A folder with two files. -/
def twoFiles : File :=
  .mk "d" none 0 true [.mk "x" (some (.mk "d" none)) 1 false [],
    .mk "y" (some (.mk "d" none)) 2 false []]

/-- The folder `twoFiles` with its files in the other order. -/
def twoFilesSwapped : File :=
  .mk "d" none 0 true [.mk "y" (some (.mk "d" none)) 2 false [],
    .mk "x" (some (.mk "d" none)) 1 false []]

/-- The example in which the listing of `/r/b` fails. -/
def failingFs : Snapshot := fun p =>
  if p = "/r" then .ok [⟨"a", 10, false⟩, ⟨"b", 4096, true⟩]
  else if p = "/r/b" then .error "permission denied"
  else .error "not a directory"

/-- The example in which the folder `/r/b` is empty. -/
def emptyFs : Snapshot := fun p =>
  if p = "/r" then .ok [⟨"a", 10, false⟩, ⟨"b", 4096, true⟩]
  else if p = "/r/b" then .ok []
  else .error "not a directory"

/-- The heights of the folders of the example. -/
def exampleHeight : String → Nat := fun p => if p = "/r" then 1 else 0

/-! # Theorems -/

/-! ## Paths -/

theorem splitSlash_ne_nil (l : List Char) : splitSlash l ≠ [] := by
  cases l with
  | nil => simp [splitSlash]
  | cons c cs =>
    simp only [splitSlash]
    split
    · simp
    · split <;> simp

theorem splitSlash_append_slash (a b : List Char) :
    splitSlash (a ++ '/' :: b) = splitSlash a ++ splitSlash b := by
  induction a with
  | nil => simp [splitSlash]
  | cons c cs ih =>
    simp only [List.cons_append, splitSlash]
    by_cases hc : c = '/'
    · simp [hc, ih]
    · simp only [hc, if_false, List.append_eq]
      rw [ih]
      cases hs : splitSlash cs with
      | nil => exact absurd hs (splitSlash_ne_nil cs)
      | cons x xs => simp

theorem splitSlash_of_not_mem (n : List Char) (h : '/' ∉ n) : splitSlash n = [n] := by
  induction n with
  | nil => simp [splitSlash]
  | cons c cs ih =>
    simp only [List.mem_cons, not_or] at h
    have hc : c ≠ '/' := fun e => h.1 e.symm
    simp [splitSlash, hc, ih h.2]

theorem splitSlash_joinSlash : ∀ (comps : List (List Char)), comps ≠ [] →
    (∀ c ∈ comps, '/' ∉ c) → splitSlash (joinSlash comps) = comps
  | [], h, _ => absurd rfl h
  | [x], _, hx => by
    simp only [joinSlash]
    exact splitSlash_of_not_mem x (hx x (List.mem_singleton.2 rfl))
  | x :: y :: ys, _, hx => by
    simp only [joinSlash]
    rw [splitSlash_append_slash, splitSlash_of_not_mem x (hx x (List.mem_cons_self _ _)),
      splitSlash_joinSlash (y :: ys) (by simp) (fun c hc => hx c (List.mem_cons_of_mem _ hc))]
    rfl

theorem joinSlash_snoc (comps : List (List Char)) (n : List Char) :
    joinSlash (comps ++ [n]) = if comps = [] then n else joinSlash comps ++ '/' :: n := by
  induction comps with
  | nil => simp [joinSlash]
  | cons x xs ih =>
    cases xs with
    | nil => simp [joinSlash]
    | cons y ys =>
      simp only [List.cons_append, joinSlash, List.append_eq] at ih ⊢
      rw [ih]
      simp

theorem baseChars_of_not_mem (n : List Char) (h : '/' ∉ n) : baseChars n = n := by
  cases n with
  | nil => rfl
  | cons c cs =>
    simp only [List.mem_cons, not_or] at h
    have hc : c ≠ '/' := fun e => h.1 e.symm
    simp [baseChars, h.2, hc]

theorem baseChars_append_slash (pre n : List Char) (h : '/' ∉ n) :
    baseChars (pre ++ '/' :: n) = n := by
  induction pre with
  | nil => simp [baseChars, h]
  | cons c cs ih =>
    simp only [List.cons_append, baseChars]
    simp [ih]

theorem baseChars_split (l : List Char) :
    '/' ∉ baseChars l ∧ ∃ pre, l = pre ++ baseChars l ∧ (pre = [] ∨ ∃ q, pre = q ++ ['/']) := by
  induction l with
  | nil => exact ⟨by simp [baseChars], [], by simp [baseChars], Or.inl rfl⟩
  | cons c cs ih =>
    simp only [baseChars]
    by_cases hm : '/' ∈ cs
    · simp only [hm, if_true]
      obtain ⟨h1, pre, h2, h3⟩ := ih
      refine ⟨h1, c :: pre, by rw [List.cons_append, ← h2], Or.inr ?_⟩
      rcases h3 with h3 | ⟨q, hq⟩
      · subst h3
        simp only [List.nil_append] at h2
        rw [← h2] at h1
        exact absurd hm h1
      · exact ⟨c :: q, by rw [hq]; rfl⟩
    · simp only [hm, if_false]
      by_cases hc : c = '/'
      · simp only [hc, if_true]
        exact ⟨hm, ['/'], rfl, Or.inr ⟨[], rfl⟩⟩
      · simp only [hc, if_false]
        refine ⟨?_, [], rfl, Or.inl rfl⟩
        simp only [List.mem_cons, not_or]
        exact ⟨fun e => hc e.symm, hm⟩


theorem splitSlash_no_slash : ∀ (l : List Char), ∀ c ∈ splitSlash l, '/' ∉ c
  | [], c, hc => by
    simp only [splitSlash, List.mem_singleton] at hc
    subst hc
    simp
  | a :: as, c, hc => by
    have ih := splitSlash_no_slash as
    simp only [splitSlash] at hc
    by_cases ha : a = '/'
    · simp only [ha, if_true, List.mem_cons] at hc
      rcases hc with h | h
      · subst h
        simp
      · exact ih c h
    · simp only [ha, if_false] at hc
      cases hs : splitSlash as with
      | nil => exact absurd hs (splitSlash_ne_nil as)
      | cons x xs =>
        rw [hs] at hc ih
        simp only [List.mem_cons] at hc
        rcases hc with h | h
        · subst h
          simp only [List.mem_cons, not_or]
          exact ⟨fun e => ha e.symm, ih x (List.mem_cons_self _ _)⟩
        · exact ih c (List.mem_cons_of_mem _ h)

theorem NormalStack.mem {rooted : Bool} {stack : List (List Char)} (h : NormalStack rooted stack) :
    ∀ c ∈ stack, c ≠ [] ∧ '/' ∉ c := by
  induction h with
  | nil => intro c hc; simp at hc
  | dotdot stack _ _ _ ih =>
    intro c hc
    rcases List.mem_cons.1 hc with h | h
    · subst h
      simp
    · exact ih c h
  | name c0 stack h1 h2 _ _ _ ih =>
    intro c hc
    rcases List.mem_cons.1 hc with h | h
    · subst h
      exact ⟨h1, h2⟩
    · exact ih c h

theorem NormalStack.step {rooted : Bool} {stack : List (List Char)} (h : NormalStack rooted stack)
    (c : List Char) (hc : '/' ∉ c) : NormalStack rooted (cleanStep rooted stack c) := by
  unfold cleanStep
  by_cases h1 : c = [] ∨ c = ['.']
  · simp only [h1, if_true]
    exact h
  · simp only [h1, if_false]
    by_cases h2 : c = ['.', '.']
    · simp only [h2, if_true]
      cases h with
      | nil =>
        cases rooted
        · exact NormalStack.dotdot [] rfl NormalStack.nil (by simp)
        · exact NormalStack.nil
      | dotdot stack hr hs hall =>
        simp only [if_true]
        refine NormalStack.dotdot _ hr (NormalStack.dotdot stack hr hs hall) ?_
        intro c hc
        rcases List.mem_cons.1 hc with h | h
        · exact h
        · exact hall c h
      | name c0 stack _ _ _ h4 hs =>
        simp only [h4, if_false]
        exact hs
    · simp only [h2, if_false]
      simp only [not_or] at h1
      exact NormalStack.name c stack h1.1 hc h1.2 h2 h

theorem NormalStack.foldl {rooted : Bool} (comps : List (List Char)) :
    ∀ {stack : List (List Char)}, NormalStack rooted stack → (∀ c ∈ comps, '/' ∉ c) →
      NormalStack rooted (comps.foldl (cleanStep rooted) stack) := by
  induction comps with
  | nil => intro stack h _; exact h
  | cons c cs ih =>
    intro stack h hc
    simp only [List.foldl_cons]
    exact ih (h.step c (hc c (List.mem_cons_self _ _))) (fun x hx => hc x (List.mem_cons_of_mem _ hx))

theorem stackOf_normal (rooted : Bool) (l : List Char) : NormalStack rooted (stackOf rooted l) :=
  NormalStack.foldl (splitSlash l) NormalStack.nil (splitSlash_no_slash l)

theorem NormalStack.replay {rooted : Bool} {stack : List (List Char)}
    (h : NormalStack rooted stack) : stack.reverse.foldl (cleanStep rooted) [] = stack := by
  induction h with
  | nil => rfl
  | dotdot stack hr _ hall ih =>
    simp only [List.reverse_cons, List.foldl_append, List.foldl_cons, List.foldl_nil, ih]
    subst hr
    cases stack with
    | nil => simp [cleanStep]
    | cons top below =>
      have := hall top (List.mem_cons_self _ _)
      subst this
      simp [cleanStep]
  | name c stack h1 _ h3 h4 _ ih =>
    simp only [List.reverse_cons, List.foldl_append, List.foldl_cons, List.foldl_nil, ih]
    simp [cleanStep, h1, h3, h4]

theorem render_ne_nil (rooted : Bool) (stack : List (List Char)) (h : NormalStack rooted stack) :
    render rooted stack ≠ [] := by
  unfold render
  cases rooted
  · simp only [Bool.false_eq_true, if_false]
    by_cases hs : stack.reverse = []
    · simp [hs]
    · simp only [hs, if_false]
      cases hr : stack.reverse with
      | nil => exact absurd hr hs
      | cons x xs =>
        have hx : x ∈ stack := by
          have : x ∈ stack.reverse := by rw [hr]; exact List.mem_cons_self _ _
          exact List.mem_reverse.1 this
        have hne := (h.mem x hx).1
        cases xs with
        | nil => simpa [joinSlash] using hne
        | cons y ys => simp [joinSlash, hne]
  · simp


theorem joinSlash_head (x : List Char) (xs : List (List Char)) (a : Char) (x1 : List Char)
    (hx : x = a :: x1) : (joinSlash (x :: xs)).head? = some a := by
  subst hx
  cases xs with
  | nil => simp [joinSlash]
  | cons y ys => simp [joinSlash]

theorem render_head (rooted : Bool) (stack : List (List Char)) (h : NormalStack rooted stack) :
    decide ((render rooted stack).head? = some '/') = rooted := by
  unfold render
  cases rooted
  · simp only [Bool.false_eq_true, if_false]
    by_cases hs : stack.reverse = []
    · simp [hs]
    · simp only [hs, if_false]
      cases hr : stack.reverse with
      | nil => exact absurd hr hs
      | cons x xs =>
        have hx : x ∈ stack := by
          have : x ∈ stack.reverse := by rw [hr]; exact List.mem_cons_self _ _
          exact List.mem_reverse.1 this
        obtain ⟨hne, hsl⟩ := h.mem x hx
        cases hxe : x with
        | nil => exact absurd hxe hne
        | cons a x1 =>
          rw [← hxe, joinSlash_head x xs a x1 hxe]
          have ha : a ≠ '/' := by
            intro e
            apply hsl
            rw [hxe, e]
            exact List.mem_cons_self _ _
          simp [ha]
  · simp

theorem stackOf_render (rooted : Bool) (stack : List (List Char)) (h : NormalStack rooted stack) :
    stackOf rooted (render rooted stack) = stack := by
  have hslash : ∀ c ∈ stack.reverse, '/' ∉ c := fun c hc => (h.mem c (List.mem_reverse.1 hc)).2
  unfold stackOf render
  by_cases hs : stack.reverse = []
  · have hs2 : stack = [] := by simpa using hs
    subst hs2
    cases rooted <;> simp [splitSlash, joinSlash, cleanStep]
  · cases rooted
    · simp only [Bool.false_eq_true, if_false, hs]
      rw [splitSlash_joinSlash _ hs hslash]
      exact h.replay
    · simp only [if_true, splitSlash, List.foldl_cons]
      rw [splitSlash_joinSlash _ hs hslash]
      have : cleanStep true [] [] = [] := by simp [cleanStep]
      rw [this]
      exact h.replay

theorem cleanChars_eq (l : List Char) (h : l ≠ []) :
    cleanChars l =
      render (decide (l.head? = some '/')) (stackOf (decide (l.head? = some '/')) l) := by
  unfold cleanChars render stackOf
  simp only [h, if_false]

theorem cleanChars_ne_nil (l : List Char) : cleanChars l ≠ [] := by
  by_cases h : l = []
  · simp [cleanChars, h]
  · rw [cleanChars_eq l h]
    exact render_ne_nil _ _ (stackOf_normal _ _)

theorem head_append_of_ne_nil (x y : List Char) (h : x ≠ []) : (x ++ y).head? = x.head? := by
  cases x with
  | nil => exact absurd rfl h
  | cons a as => rfl

theorem cleanChars_append (x b : List Char) (h : x ≠ []) :
    cleanChars (x ++ '/' :: b) =
      render (decide (x.head? = some '/'))
        ((splitSlash b).foldl (cleanStep (decide (x.head? = some '/')))
          (stackOf (decide (x.head? = some '/')) x)) := by
  have hne : x ++ '/' :: b ≠ [] := by simp
  rw [cleanChars_eq _ hne, head_append_of_ne_nil x _ h]
  unfold stackOf
  rw [splitSlash_append_slash, List.foldl_append]

/-- Cleaning a path first does not change what is joined to it. -/
theorem cleanChars_cleanChars_append (l b : List Char) (h : l ≠ []) :
    cleanChars (cleanChars l ++ '/' :: b) = cleanChars (l ++ '/' :: b) := by
  rw [cleanChars_append _ b (cleanChars_ne_nil l), cleanChars_append l b h]
  rw [cleanChars_eq l h]
  rw [render_head _ _ (stackOf_normal _ _), stackOf_render _ _ (stackOf_normal _ _)]


theorem ne_empty_iff (s : String) : s ≠ "" ↔ s.data ≠ [] := by
  constructor
  · intro h hd
    apply h
    exact String.ext hd
  · intro h hs
    apply h
    rw [hs]

theorem cleanStep_nil (rooted : Bool) (stack : List (List Char)) :
    cleanStep rooted stack [] = stack := by
  simp [cleanStep]

theorem cleanChars_double_slash (q b : List Char) :
    cleanChars (q ++ '/' :: '/' :: b) = cleanChars (q ++ '/' :: b) := by
  by_cases hq : q = []
  · subst hq
    simp only [List.nil_append]
    rw [cleanChars_eq _ (by simp), cleanChars_eq _ (by simp)]
    simp [stackOf, splitSlash, cleanStep_nil]
  · rw [cleanChars_append q _ hq, cleanChars_append q b hq]
    simp [splitSlash, cleanStep_nil]

theorem Join_of_ne (a b : String) (h : a.data ≠ []) :
    Join a b = String.mk (cleanChars (a.data ++ '/' :: b.data)) := by
  unfold Join Clean
  rw [if_pos ((ne_empty_iff a).2 h)]

theorem Join_empty_left (b : String) (h : b.data ≠ []) :
    Join "" b = String.mk (cleanChars b.data) := by
  unfold Join Clean
  rw [if_neg (by simp), if_pos ((ne_empty_iff b).2 h)]

/-- The name given to the root is the cleaned root path. -/
theorem rootName_eq (r : String) (h : r.data ≠ []) :
    Join (Split r).1 (Split r).2 = String.mk (cleanChars r.data) := by
  obtain ⟨hb, pre, hl, hpre⟩ := baseChars_split r.data
  have hlen : r.data.length - (baseChars r.data).length = pre.length := by
    have := congrArg List.length hl
    simp only [List.length_append] at this
    omega
  have htake : r.data.take (r.data.length - (baseChars r.data).length) = pre := by
    rw [hlen]
    conv_lhs => rw [hl]
    simp
  have hS : Split r = (String.mk pre, String.mk (baseChars r.data)) := by
    unfold Split
    simp only [htake]
  rw [hS]
  rcases hpre with hp | ⟨q, hq⟩
  · subst hp
    simp only [List.nil_append] at hl
    have hbne : (baseChars r.data) ≠ [] := by rw [← hl]; exact h
    have : (String.mk ([] : List Char)) = "" := rfl
    simp only [this]
    rw [Join_empty_left _ hbne]
    simp only
    rw [← hl]
  · rw [Join_of_ne _ _ (by rw [hq]; simp)]
    simp only
    congr 1
    rw [hq, List.append_assoc]
    simp only [List.singleton_append]
    rw [cleanChars_double_slash]
    conv_rhs => rw [hl, hq, List.append_assoc]
    simp

/-- The name given to the root stands for the root path in every `Join`. -/
theorem Join_rootName (r n : String) :
    Join (Join (Split r).1 (Split r).2) n = Join r n := by
  by_cases h : r.data = []
  · have hr : r = "" := String.ext h
    subst hr
    rfl
  · rw [rootName_eq r h, Join_of_ne (String.mk (cleanChars r.data)) n (cleanChars_ne_nil _),
      Join_of_ne r n h]
    simp only
    rw [cleanChars_cleanChars_append _ _ h]


theorem validName_iff (n : String) : validName n = true ↔
    n.data ≠ [] ∧ '/' ∉ n.data ∧ n.data ≠ ['.'] ∧ n.data ≠ ['.', '.'] := by
  unfold validName
  simp

theorem cleanStep_valid (rooted : Bool) (stack : List (List Char)) (c : List Char)
    (h1 : c ≠ []) (h3 : c ≠ ['.']) (h4 : c ≠ ['.', '.']) :
    cleanStep rooted stack c = c :: stack := by
  simp [cleanStep, h1, h3, h4]

theorem baseChars_render_cons (rooted : Bool) (stack : List (List Char)) (c : List Char)
    (hc : '/' ∉ c) : baseChars (render rooted (c :: stack)) = c := by
  unfold render
  simp only [List.reverse_cons, joinSlash_snoc]
  have hne : stack.reverse ++ [c] ≠ [] := by simp
  simp only [hne, if_false]
  by_cases hs : stack.reverse = []
  · simp only [hs, if_true]
    cases rooted
    · simp only [Bool.false_eq_true, if_false]
      exact baseChars_of_not_mem c hc
    · simp only [if_true]
      exact baseChars_append_slash [] c hc
  · simp only [hs, if_false]
    cases rooted
    · simp only [Bool.false_eq_true, if_false]
      exact baseChars_append_slash _ c hc
    · simp only [if_true]
      exact baseChars_append_slash ('/' :: joinSlash stack.reverse) c hc

/-- The base name of a path made by joining a file name to a path is that name. -/
theorem Split_Join (a n : String) (h : validName n = true) : (Split (Join a n)).2 = n := by
  obtain ⟨h1, h2, h3, h4⟩ := (validName_iff n).1 h
  have hgoal : ∀ l, baseChars l = n.data → (Split (String.mk l)).2 = n := by
    intro l hl
    unfold Split
    simp only [hl]
  by_cases ha : a.data = []
  · have : a = "" := String.ext ha
    subst this
    rw [Join_empty_left n h1]
    apply hgoal
    rw [cleanChars_eq _ h1]
    unfold stackOf
    rw [splitSlash_of_not_mem _ h2]
    simp only [List.foldl_cons, List.foldl_nil, cleanStep_valid _ _ _ h1 h3 h4]
    exact baseChars_render_cons _ _ _ h2
  · rw [Join_of_ne a n ha]
    apply hgoal
    rw [cleanChars_append _ _ ha, splitSlash_of_not_mem _ h2]
    simp only [List.foldl_cons, List.foldl_nil, cleanStep_valid _ _ _ h1 h3 h4]
    exact baseChars_render_cons _ _ _ h2

/-! ## Size aggregation -/

theorem UpdateSizeList_eq_map (fs : List File) : UpdateSizeList fs = fs.map File.UpdateSize := by
  induction fs with
  | nil => simp [UpdateSizeList]
  | cons f r ih => simp [UpdateSizeList, ih]

theorem UpdateSize_mk (n : String) (p : Option Up) (s : Int) (d : Bool) (fs : List File) :
    (File.mk n p s d fs).UpdateSize =
      if d then File.mk n p (accSize 0 (fs.map File.UpdateSize)) d (fs.map File.UpdateSize)
      else File.mk n p s d fs := by
  cases d <;> simp [File.UpdateSize, UpdateSizeList_eq_map]

theorem wrap64_wrap64_add (x y : Int) : wrap64 (wrap64 x + y) = wrap64 (x + y) := by
  unfold wrap64
  norm_num
  omega

theorem accSize_eq (acc : Int) (fs : List File) :
    accSize (wrap64 acc) fs = wrap64 (acc + sumSizes fs) := by
  induction fs generalizing acc with
  | nil => simp [accSize, sumSizes]
  | cons f r ih =>
    simp only [accSize, wrap64_wrap64_add, ih, sumSizes, List.map_cons, List.sum_cons]
    congr 1
    ring

theorem accSize_zero (fs : List File) : accSize 0 fs = wrap64 (sumSizes fs) := by
  have h := accSize_eq 0 fs
  have h0 : wrap64 0 = 0 := by decide
  rw [h0] at h
  simpa using h

mutual
theorem UpdateSize_framed : ∀ f : File, f.Framed f.UpdateSize
  | .mk n p s d fs => by
    cases d
    · have h := Framed_refl_list fs
      simp [UpdateSize_mk, File.Framed, File.Name, File.Parent, File.IsDir, File.Size, File.Files, h]
    · have h := UpdateSizeList_framed fs
      simp [UpdateSize_mk, File.Framed, File.Name, File.Parent, File.IsDir, File.Size, File.Files,
        ← UpdateSizeList_eq_map, h]
theorem UpdateSizeList_framed : ∀ fs : List File, FramedList fs (UpdateSizeList fs)
  | [] => by simp [FramedList, UpdateSizeList]
  | f :: rest => by
    simp only [FramedList, UpdateSizeList]
    exact ⟨UpdateSize_framed f, UpdateSizeList_framed rest⟩
theorem Framed_refl : ∀ f : File, f.Framed f
  | .mk n p s d fs => by
    simp [File.Framed, File.Name, File.Parent, File.IsDir, File.Size, File.Files, Framed_refl_list fs]
theorem Framed_refl_list : ∀ fs : List File, FramedList fs fs
  | [] => by simp [FramedList]
  | f :: rest => by
    simp only [FramedList]
    exact ⟨Framed_refl f, Framed_refl_list rest⟩
end

theorem PermEqList_sumSizes : ∀ (fs gs : List File), PermEqList fs gs → sumSizes fs = sumSizes gs
  | [], gs, h => by
    simp only [PermEqList] at h
    subst h
    rfl
  | f :: fs, [], h => by simp [PermEqList] at h
  | f :: fs, g :: gs, h => by
    simp only [PermEqList] at h
    have ih := PermEqList_sumSizes fs gs h.2
    have hs : f.Size = g.Size := by
      cases f with
      | mk n p s d cs =>
        have h1 := h.1
        simp only [File.PermEq] at h1
        exact h1.2.2.1
    simp only [sumSizes, List.map_cons, List.sum_cons] at ih ⊢
    rw [hs, ih]

theorem sumSizes_perm {fs gs : List File} (h : fs.Perm gs) : sumSizes fs = sumSizes gs := by
  unfold sumSizes
  exact (h.map File.Size).sum_eq

mutual
theorem UpdateSize_permEq : ∀ (f g : File), f.PermEq g → f.UpdateSize.PermEq g.UpdateSize
  | .mk n p s d fs, .mk n2 p2 s2 d2 gs0, h => by
    simp only [File.PermEq, File.Name, File.Parent, File.Size, File.IsDir, File.Files] at h
    obtain ⟨hn, hp, hs, hd, gs, hperm, hl⟩ := h
    subst hn hp hs hd
    cases d
    · simp only [UpdateSize_mk, Bool.false_eq_true, if_false, File.PermEq, File.Name, File.Parent,
        File.Size, File.IsDir, File.Files, true_and]
      exact ⟨gs, hperm, hl⟩
    · have ih := UpdateSizeList_permEq fs gs hl
      simp only [UpdateSize_mk, if_true, File.PermEq, File.Name, File.Parent,
        File.Size, File.IsDir, File.Files, true_and]
      refine ⟨?_, gs.map File.UpdateSize, hperm.map _, ?_⟩
      · rw [accSize_zero, accSize_zero]
        congr 1
        rw [UpdateSizeList_eq_map, UpdateSizeList_eq_map] at ih
        rw [PermEqList_sumSizes _ _ ih]
        exact sumSizes_perm (hperm.map _)
      · rw [UpdateSizeList_eq_map, UpdateSizeList_eq_map] at ih
        exact ih
theorem UpdateSizeList_permEq : ∀ (fs gs : List File), PermEqList fs gs →
    PermEqList (UpdateSizeList fs) (UpdateSizeList gs)
  | [], gs, h => by
    simp only [PermEqList] at h
    subst h
    simp [PermEqList, UpdateSizeList]
  | f :: fs, [], h => by simp [PermEqList] at h
  | f :: fs, g :: gs, h => by
    simp only [PermEqList] at h
    simp only [PermEqList, UpdateSizeList]
    exact ⟨UpdateSize_permEq f g h.1, UpdateSizeList_permEq fs gs h.2⟩
end

/-! ## Induction over the walk -/

/-- Induction over the calls of the walker: a property `P` of the calls and a
property `Q` of the loops hold as soon as they are preserved by every branch
of `walkSubFolderConcurrently` and of its loop. Both may depend on the fuel. -/
theorem walk_induct (sched : String → Nat) (rd : ReadDir)
    (P : Nat → String → Option Up → List String → Walked → Prop)
    (Q : Nat → String → Up → List FileInfo → List String → Looped → Prop)
    (herr : ∀ fuel path parent log e log1, rd path log = (.error e, log1) →
      P (fuel + 1) path parent log ⟨File.zero, log1, []⟩)
    (hok : ∀ fuel path parent log entries log1 r, rd path log = (.ok entries, log1) →
      Q fuel path (Up.mk (if parent.isSome then (Split path).2
          else Join (Split path).1 (Split path).2) parent) entries log1 r →
      P (fuel + 1) path parent log ⟨File.mk (if parent.isSome then (Split path).2
          else Join (Split path).1 (Split path).2) parent 0 true r.files, r.log,
        r.progress ++ updateProgress r.numSubFolders⟩)
    (hnil : ∀ fuel path up log, Q fuel path up [] log ⟨[], log, [], 0⟩)
    (hdir : ∀ fuel path up e rest log sub r, e.IsDir = true →
      P fuel (Join path e.Name) (some up) log sub → Q fuel path up rest sub.log r →
      Q fuel path up (e :: rest) log
        ⟨insertAt (sched (Join path e.Name)) sub.file r.files, r.log,
          sub.progress ++ r.progress, r.numSubFolders + 1⟩)
    (hfile : ∀ fuel path up e rest log r, e.IsDir = false → Q fuel path up rest log r →
      Q fuel path up (e :: rest) log
        ⟨File.mk e.Name (some up) e.Size false [] :: r.files, r.log,
          r.progress, r.numSubFolders⟩) :
    ∀ fuel path parent log w,
      walkSubFolderConcurrently sched rd fuel path parent log = some w →
      P fuel path parent log w := by
  intro fuel
  induction fuel with
  | zero => intro path parent log w h; simp [walkSubFolderConcurrently] at h
  | succ fuel ih =>
    have hloop : ∀ path up entries log r,
        walkEntries sched (walkSubFolderConcurrently sched rd fuel) path up entries log = some r →
        Q fuel path up entries log r := by
      intro path up entries
      induction entries with
      | nil =>
        intro log r h
        simp only [walkEntries, Option.some.injEq] at h
        subst h
        exact hnil fuel path up log
      | cons e rest ihr =>
        intro log r h
        simp only [walkEntries] at h
        split at h
        · rename_i hd
          split at h
          · exact absurd h (by simp)
          · rename_i sub hsub
            split at h
            · exact absurd h (by simp)
            · rename_i r1 hr1
              simp only [Option.some.injEq] at h
              subst h
              exact hdir fuel path up e rest log sub r1 hd (ih _ _ _ _ hsub) (ihr _ _ hr1)
        · rename_i hd
          split at h
          · exact absurd h (by simp)
          · rename_i r1 hr1
            simp only [Option.some.injEq] at h
            subst h
            exact hfile fuel path up e rest log r1 (by simpa using hd) (ihr _ _ hr1)
    intro path parent log w h
    simp only [walkSubFolderConcurrently] at h
    split at h
    · rename_i e log1 hrd
      simp only [Option.some.injEq] at h
      subst h
      exact herr fuel path parent log e log1 hrd
    · rename_i entries log1 hrd
      split at h
      · exact absurd h (by simp)
      · rename_i r hr
        simp only [Option.some.injEq] at h
        subst h
        exact hok fuel path parent log entries log1 r hrd (hloop _ _ _ _ _ hr)

theorem mem_nodes_self (f : File) : f ∈ f.nodes := by
  cases f
  simp [File.nodes]

theorem mem_nodesList {g : File} : ∀ {fs : List File}, g ∈ nodesList fs ↔ ∃ c ∈ fs, g ∈ c.nodes
  | [] => by simp [nodesList]
  | f :: rest => by
    simp only [nodesList, List.mem_append, List.mem_cons, exists_eq_or_imp]
    rw [mem_nodesList]

theorem mem_nodes {g f : File} : g ∈ f.nodes ↔ g = f ∨ ∃ c ∈ f.Files, g ∈ c.nodes := by
  cases f
  simp [File.nodes, File.Files, mem_nodesList]

theorem mem_insertAt {x s : File} {k : Nat} {l : List File} :
    x ∈ insertAt k s l ↔ x = s ∨ x ∈ l := by
  unfold insertAt
  constructor
  · intro h
    rcases List.mem_append.1 h with h | h
    · exact Or.inr (List.mem_of_mem_take h)
    · rcases List.mem_cons.1 h with h | h
      · exact Or.inl h
      · exact Or.inr (List.mem_of_mem_drop h)
  · intro h
    rcases h with h | h
    · subst h
      simp
    · have h2 : x ∈ l.take k ++ l.drop k := by rwa [List.take_append_drop]
      rcases List.mem_append.1 h2 with h3 | h3
      · exact List.mem_append.2 (Or.inl h3)
      · exact List.mem_append.2 (Or.inr (List.mem_cons_of_mem _ h3))

theorem insertAt_perm (k : Nat) (s : File) (l : List File) : (insertAt k s l).Perm (s :: l) := by
  unfold insertAt
  have h := @List.perm_middle File s (l.take k) (l.drop k)
  rwa [List.take_append_drop] at h

theorem walk_leavesChildless (sched : String → Nat) (rd : ReadDir) :
    ∀ fuel path parent log w,
      walkSubFolderConcurrently sched rd fuel path parent log = some w →
      w.file.LeavesChildless := by
  apply walk_induct sched rd (fun _ _ _ _ w => w.file.LeavesChildless)
    (fun _ _ _ _ _ r => ∀ c ∈ r.files, c.LeavesChildless)
  · intro _ path parent log e log1 _ n hn _
    simp only [File.zero, File.nodes, nodesList, List.mem_singleton, List.append_nil,
      List.mem_cons, List.not_mem_nil, or_false] at hn
    subst hn
    rfl
  · intro _ path parent log entries log1 r _ hq n hn hd
    rcases mem_nodes.1 hn with h | ⟨c, hc, hnc⟩
    · subst h
      simp [File.IsDir] at hd
    · exact hq c hc n hnc hd
  · intro _ path up log c hc
    simp at hc
  · intro _ path up e rest log sub r _ hp hq c hc
    rcases mem_insertAt.1 hc with h | h
    · subst h
      exact hp
    · exact hq c h
  · intro _ path up e rest log r _ hq c hc
    rcases List.mem_cons.1 hc with h | h
    · subst h
      intro n hn _
      simp only [File.nodes, nodesList, List.mem_singleton, List.mem_cons, List.not_mem_nil,
        or_false] at hn
      subst hn
      rfl
    · exact hq c h

mutual
theorem UpdateSize_sums : ∀ f : File, f.LeavesChildless →
    ∀ n ∈ f.UpdateSize.nodes, n.IsDir = true → n.Size = wrap64 (sumSizes n.Files)
  | .mk nm p s d fs, hl, n, hn, hd => by
    cases d
    · simp only [UpdateSize_mk, Bool.false_eq_true, if_false] at hn
      have hfs : fs = [] := hl _ (mem_nodes_self _) rfl
      subst hfs
      simp only [File.nodes, nodesList, List.mem_singleton, List.mem_cons, List.not_mem_nil,
        or_false] at hn
      subst hn
      simp [File.IsDir] at hd
    · simp only [UpdateSize_mk, if_true] at hn
      rcases mem_nodes.1 hn with h | ⟨c, hc, hnc⟩
      · subst h
        simp [File.Size, File.Files, accSize_zero]
      · simp only [File.Files] at hc
        rw [← UpdateSizeList_eq_map] at hc
        refine UpdateSizeList_sums fs ?_ n (mem_nodesList.2 ⟨c, hc, hnc⟩) hd
        intro c2 hc2 m hm
        exact hl m (mem_nodes.2 (Or.inr ⟨c2, hc2, hm⟩))
theorem UpdateSizeList_sums : ∀ fs : List File, (∀ c ∈ fs, c.LeavesChildless) →
    ∀ n ∈ nodesList (UpdateSizeList fs), n.IsDir = true → n.Size = wrap64 (sumSizes n.Files)
  | [], _, n, hn, _ => by simp [UpdateSizeList, nodesList] at hn
  | f :: rest, hl, n, hn, hd => by
    simp only [UpdateSizeList, nodesList, List.mem_append] at hn
    rcases hn with h | h
    · exact UpdateSize_sums f (hl f (List.mem_cons_self _ _)) n h hd
    · exact UpdateSizeList_sums rest (fun c hc => hl c (List.mem_cons_of_mem _ hc)) n h hd
end

theorem wrap64_of_range {x : Int} (h1 : -2 ^ 63 ≤ x) (h2 : x < 2 ^ 63) : wrap64 x = x := by
  unfold wrap64
  norm_num at h1 h2 ⊢
  omega

theorem WalkFolder_sizes (sched : String → Nat) (fuel : Nat) (path : String)
    (readDir : ReadDir) (ignoreFunction : ShouldIgnoreFolder) (w : Walked)
    (h : WalkFolder sched fuel path readDir ignoreFunction = some w) :
    ∀ n ∈ w.file.nodes, n.IsDir = true → n.Size = wrap64 (sumSizes n.Files) := by
  intro n hn hd
  unfold WalkFolder at h
  split at h
  · exact absurd h (by simp)
  · rename_i w0 hw0
    simp only [Option.some.injEq] at h
    subst h
    exact UpdateSize_sums w0.file (walk_leavesChildless _ _ _ _ _ _ _ hw0) n hn hd

/-! ## The claims on aggregation -/

/-- C1: in the tree returned by `WalkFolder`, every node with `IsDir = true`, at
every depth, has as `Size` the `int64` sum of the `Size` fields of the nodes of
its `Files` list, which is their sum whenever that sum is an `int64`. -/
theorem WalkFolder_aggregation (sched : String → Nat) (fuel : Nat) (path : String)
    (readDir : ReadDir) (ignoreFunction : ShouldIgnoreFolder) (w : Walked)
    (h : WalkFolder sched fuel path readDir ignoreFunction = some w) :
    ∀ n ∈ w.file.nodes, n.IsDir = true →
      n.Size = wrap64 (sumSizes n.Files) ∧
      (-2 ^ 63 ≤ sumSizes n.Files → sumSizes n.Files < 2 ^ 63 → n.Size = sumSizes n.Files) := by
  intro n hn hd
  have hs := WalkFolder_sizes sched fuel path readDir ignoreFunction w h n hn hd
  exact ⟨hs, fun h1 h2 => by rw [hs, wrap64_of_range h1 h2]⟩

/-- C1, on the example: the root has size 30 and the folder `b` size 20. -/
theorem WalkFolder_aggregation_witness :
    ∃ w, WalkFolder atOnce 3 "/r" exampleFs.readDir ignoreNothing = some w ∧
      w.file.Size = 30 ∧ w.file.Files.map File.Name = ["a", "b"] ∧
      w.file.Files.map File.Size = [10, 20] ∧
      ∀ n ∈ w.file.nodes, n.IsDir = true →
        n.Size = wrap64 (sumSizes n.Files) ∧
        (-2 ^ 63 ≤ sumSizes n.Files → sumSizes n.Files < 2 ^ 63 → n.Size = sumSizes n.Files) :=
  ⟨_, rfl, rfl, rfl, rfl,
    WalkFolder_aggregation atOnce 3 "/r" exampleFs.readDir ignoreNothing _ rfl⟩

/-- C9: when two trees differ only by the order of the `Files` lists of their
nodes, `UpdateSize` leaves two trees that again differ only by that order, with
the same `Size` at corresponding nodes; the two roots get the same `Size`. -/
theorem UpdateSize_order_independent (f g : File) (h : f.PermEq g) :
    f.UpdateSize.PermEq g.UpdateSize ∧ f.UpdateSize.Size = g.UpdateSize.Size := by
  have hp := UpdateSize_permEq f g h
  refine ⟨hp, ?_⟩
  cases hf : f.UpdateSize with
  | mk n p s d fs =>
    rw [hf] at hp
    simp only [File.PermEq] at hp
    exact hp.2.2.1

/-- C9, on a folder with two files listed in both orders. -/
theorem UpdateSize_order_independent_witness :
    twoFiles.PermEq twoFilesSwapped ∧ twoFiles.UpdateSize.Size = 3 ∧
      twoFilesSwapped.UpdateSize.Size = 3 ∧
      twoFiles.UpdateSize.PermEq twoFilesSwapped.UpdateSize ∧
      twoFiles.UpdateSize.Size = twoFilesSwapped.UpdateSize.Size :=
  have hperm : twoFiles.PermEq twoFilesSwapped :=
    ⟨rfl, rfl, rfl, rfl, _, List.Perm.swap _ _ _,
      ⟨rfl, rfl, rfl, rfl, [], List.Perm.nil, rfl⟩,
      ⟨rfl, rfl, rfl, rfl, [], List.Perm.nil, rfl⟩, rfl⟩
  ⟨hperm, rfl, rfl, UpdateSize_order_independent twoFiles twoFilesSwapped hperm⟩

/-- C10: `UpdateSize` changes nothing but the `Size` of nodes with `IsDir = true`:
the tree keeps its shape and the order of every `Files` list, every node
keeps its `Name`, `Parent` and `IsDir`, and every node with `IsDir = false` keeps
its `Size`. -/
theorem UpdateSize_frame (f : File) : f.Framed f.UpdateSize :=
  UpdateSize_framed f

/-! ## The claim on progress -/

theorem ignoringReadDir_snapshot (ign : ShouldIgnoreFolder) (fs : Snapshot) (path : String)
    (log : List String) :
    ignoringReadDir ign fs.readDir path log =
      if ign path then (.ok [], log) else (fs path, log ++ [path]) := rfl

theorem updateProgress_subFolders (entries : List FileInfo) (fs : Snapshot) (path : String)
    (h : fs path = .ok entries) :
    updateProgress (subFolders entries : Int) = sentBy fs path := by
  unfold updateProgress sentBy
  rw [h]
  by_cases h0 : subFolders entries = 0
  · simp [h0]
  · have : (subFolders entries : Int) > 0 := by omega
    simp [h0, this]

theorem updateProgress_sum (n : Nat) : (updateProgress (n : Int)).sum = n := by
  unfold updateProgress
  by_cases h0 : n = 0
  · simp [h0]
  · have : (n : Int) > 0 := by omega
    simp [this]

theorem walk_progress_sum (sched : String → Nat) (fs : Snapshot) (ign : ShouldIgnoreFolder)
    (hign : ∀ p, ign p = false) :
    ∀ fuel path parent log w,
      walkSubFolderConcurrently sched (ignoringReadDir ign fs.readDir) fuel path parent log
        = some w →
      w.progress.sum = (countDirs fs fuel path : Int) := by
  apply walk_induct sched _ (fun fuel path _ _ w => w.progress.sum = (countDirs fs fuel path : Int))
    (fun fuel path _ entries _ r =>
      r.numSubFolders = (subFolders entries : Int) ∧
      r.progress.sum + r.numSubFolders = (((entries.map (fun e =>
        if e.IsDir then 1 + countDirs fs fuel (Join path e.Name) else 0)).sum : Nat) : Int))
  · intro fuel path parent log e log1 h
    rw [ignoringReadDir_snapshot, hign] at h
    simp only [Bool.false_eq_true, if_false, Prod.mk.injEq] at h
    simp [countDirs, h.1]
  · intro fuel path parent log entries log1 r h hq
    rw [ignoringReadDir_snapshot, hign] at h
    simp only [Bool.false_eq_true, if_false, Prod.mk.injEq] at h
    simp only [countDirs, h.1, List.sum_append]
    rw [hq.1, updateProgress_sum, ← hq.2, hq.1]
  · intro fuel path up log
    simp [subFolders]
  · intro fuel path up e rest log sub r hd hp hq
    simp only [subFolders, List.countP_cons, hd, if_true, List.map_cons, List.sum_cons,
      List.sum_append, Nat.cast_add, Nat.cast_one]
    simp only [subFolders] at hq
    refine ⟨by rw [hq.1], ?_⟩
    rw [← hq.2, hp]
    ring
  · intro fuel path up e rest log r hd hq
    simp only [subFolders, List.countP_cons, hd, Bool.false_eq_true, if_false, List.map_cons,
      List.sum_cons, Nat.add_zero, Nat.zero_add]
    simp only [subFolders] at hq
    exact hq

theorem walk_progress_perm (sched : String → Nat) (fs : Snapshot) (ign : ShouldIgnoreFolder) :
    ∀ fuel path parent log w,
      walkSubFolderConcurrently sched (ignoringReadDir ign fs.readDir) fuel path parent log
        = some w →
      ∃ new, w.log = log ++ new ∧ w.progress.Perm (new.flatMap (sentBy fs)) := by
  apply walk_induct sched _
    (fun _ _ _ log w => ∃ new, w.log = log ++ new ∧ w.progress.Perm (new.flatMap (sentBy fs)))
    (fun _ _ _ entries log r => r.numSubFolders = (subFolders entries : Int) ∧
      ∃ new, r.log = log ++ new ∧ r.progress.Perm (new.flatMap (sentBy fs)))
  · intro fuel path parent log e log1 h
    rw [ignoringReadDir_snapshot] at h
    split at h
    · simp at h
    · simp only [Prod.mk.injEq] at h
      refine ⟨[path], h.2.symm, ?_⟩
      simp [sentBy, h.1]
  · intro fuel path parent log entries log1 r h hq
    obtain ⟨hn, new, hlog, hperm⟩ := hq
    rw [ignoringReadDir_snapshot] at h
    split at h
    · simp only [Prod.mk.injEq, Except.ok.injEq] at h
      obtain ⟨h1, h2⟩ := h
      subst h1 h2
      refine ⟨new, hlog, ?_⟩
      simp only [hn, subFolders, List.countP_nil, Nat.cast_zero, updateProgress, gt_iff_lt,
        lt_self_iff_false, if_false, List.append_nil]
      exact hperm
    · simp only [Prod.mk.injEq] at h
      obtain ⟨h1, h2⟩ := h
      subst h2
      refine ⟨path :: new, by simp [hlog], ?_⟩
      rw [hn, updateProgress_subFolders entries fs path h1]
      simp only [List.flatMap_cons]
      exact List.perm_append_comm.trans (List.Perm.append_left _ hperm)
  · intro fuel path up log
    exact ⟨by simp [subFolders], [], by simp, by simp⟩
  · intro fuel path up e rest log sub r hd hp hq
    obtain ⟨new1, hlog1, hperm1⟩ := hp
    obtain ⟨hn, new2, hlog2, hperm2⟩ := hq
    refine ⟨by simp [subFolders, List.countP_cons, hd, hn], new1 ++ new2, ?_, ?_⟩
    · simp [hlog2, hlog1]
    · simp only [List.flatMap_append]
      exact hperm1.append hperm2
  · intro fuel path up e rest log r hd hq
    obtain ⟨hn, new2, hlog2, hperm2⟩ := hq
    exact ⟨by simp [subFolders, List.countP_cons, hd, hn], new2, hlog2, hperm2⟩


theorem walk_countDirs_stable (sched : String → Nat) (fs : Snapshot) (ign : ShouldIgnoreFolder)
    (hign : ∀ p, ign p = false) :
    ∀ fuel path parent log w,
      walkSubFolderConcurrently sched (ignoringReadDir ign fs.readDir) fuel path parent log
        = some w →
      ∀ k, countDirs fs (fuel + k) path = countDirs fs fuel path := by
  apply walk_induct sched _
    (fun fuel path _ _ _ => ∀ k, countDirs fs (fuel + k) path = countDirs fs fuel path)
    (fun fuel path _ entries _ _ => ∀ k,
      (entries.map (fun e =>
        if e.IsDir then 1 + countDirs fs (fuel + k) (Join path e.Name) else 0)).sum =
      (entries.map (fun e =>
        if e.IsDir then 1 + countDirs fs fuel (Join path e.Name) else 0)).sum)
  · intro fuel path parent log e log1 h k
    rw [ignoringReadDir_snapshot, hign] at h
    simp only [Bool.false_eq_true, if_false, Prod.mk.injEq] at h
    have : fuel + 1 + k = (fuel + k) + 1 := by omega
    rw [this]
    simp [countDirs, h.1]
  · intro fuel path parent log entries log1 r h hq k
    rw [ignoringReadDir_snapshot, hign] at h
    simp only [Bool.false_eq_true, if_false, Prod.mk.injEq] at h
    have : fuel + 1 + k = (fuel + k) + 1 := by omega
    rw [this]
    simp only [countDirs, h.1]
    exact hq k
  · intro fuel path up log k
    rfl
  · intro fuel path up e rest log sub r hd hp hq k
    simp only [List.map_cons, List.sum_cons, hd, if_true, hp k, hq k]
  · intro fuel path up e rest log r hd hq k
    simp only [List.map_cons, List.sum_cons, hd, Bool.false_eq_true, if_false, hq k]

/-- C7: when nothing is ignored, the values sent on `progress` add up to the
number of directory entries found below the root, a number that more fuel
does not change; and the values sent are, up to their order, one value for
every directory on which the listing function was called, as `sentBy` has it:
the number of sub folders of its listing, and nothing when there is none. -/
theorem WalkFolder_progress (sched : String → Nat) (fuel : Nat) (path : String) (fs : Snapshot)
    (ignoreFunction : ShouldIgnoreFolder) (w : Walked)
    (hign : ∀ p, ignoreFunction p = false)
    (h : WalkFolder sched fuel path fs.readDir ignoreFunction = some w) :
    w.progress.sum = (countDirs fs fuel path : Int) ∧
    (∀ k, countDirs fs (fuel + k) path = countDirs fs fuel path) ∧
    w.progress.Perm (w.log.flatMap (sentBy fs)) := by
  unfold WalkFolder at h
  split at h
  · exact absurd h (by simp)
  · rename_i w0 hw0
    simp only [Option.some.injEq] at h
    subst h
    refine ⟨walk_progress_sum sched fs _ hign _ _ _ _ w0 hw0,
      walk_countDirs_stable sched fs _ hign _ _ _ _ w0 hw0, ?_⟩
    obtain ⟨new, hlog, hperm⟩ := walk_progress_perm sched fs ignoreFunction _ _ _ _ _ hw0
    simp only [List.nil_append] at hlog
    simp only [hlog]
    exact hperm

/-- C7, on the example: one value, 1, is sent, for the one folder below the root. -/
theorem WalkFolder_progress_witness :
    ∃ w, WalkFolder atOnce 3 "/r" exampleFs.readDir ignoreNothing = some w ∧
      w.progress = [1] ∧ countDirs exampleFs 3 "/r" = 1 ∧
      w.progress.sum = (countDirs exampleFs 3 "/r" : Int) ∧
      (∀ k, countDirs exampleFs (3 + k) "/r" = countDirs exampleFs 3 "/r") ∧
      w.progress.Perm (w.log.flatMap (sentBy exampleFs)) :=
  ⟨_, rfl, rfl, rfl,
    WalkFolder_progress atOnce 3 "/r" exampleFs ignoreNothing _ (fun _ => rfl) rfl⟩

/-! ## The tree mirrors the snapshot -/

theorem readDir_listing (fs : Snapshot) (ign : ShouldIgnoreFolder) (path : String)
    (log : List String) :
    (ignoringReadDir ign fs.readDir path log).1 = listing fs ign path := by
  unfold ignoringReadDir listing Snapshot.readDir
  split <;> rfl

theorem readDir_entries_valid (fs : Snapshot) (ign : ShouldIgnoreFolder) (hwell : fs.WellNamed)
    (path : String) (log log1 : List String) (entries : List FileInfo)
    (h : ignoringReadDir ign fs.readDir path log = (.ok entries, log1)) :
    ∀ e ∈ entries, e.IsDir = true → validName e.Name = true := by
  unfold ignoringReadDir Snapshot.readDir at h
  split at h
  · simp only [Prod.mk.injEq, Except.ok.injEq] at h
    intro e he
    rw [← h.1] at he
    simp at he
  · simp only [Prod.mk.injEq] at h
    exact hwell path entries h.1

theorem mem_nodesList_insertAt {m s : File} {k : Nat} {l : List File} :
    m ∈ nodesList (insertAt k s l) ↔ m ∈ s.nodes ∨ m ∈ nodesList l := by
  simp only [mem_nodesList]
  constructor
  · rintro ⟨c, hc, hm⟩
    rcases mem_insertAt.1 hc with h | h
    · subst h
      exact Or.inl hm
    · exact Or.inr ⟨c, h, hm⟩
  · rintro (h | ⟨c, hc, hm⟩)
    · exact ⟨s, mem_insertAt.2 (Or.inl rfl), h⟩
    · exact ⟨c, mem_insertAt.2 (Or.inr hc), hm⟩

theorem map_insertAt_perm {β : Type} (f : File → β) (k : Nat) (s : File) (l : List File) :
    ((insertAt k s l).map f).Perm (f s :: l.map f) :=
  (insertAt_perm k s l).map f

theorem nodes_mk (n : String) (p : Option Up) (s : Int) (d : Bool) (fs : List File) :
    (File.mk n p s d fs).nodes = File.mk n p s d fs :: nodesList fs := by
  simp [File.nodes]

theorem walk_mirror (sched : String → Nat) (fs : Snapshot) (ign : ShouldIgnoreFolder)
    (hwell : fs.WellNamed) :
    ∀ fuel path parent log w,
      walkSubFolderConcurrently sched (ignoringReadDir ign fs.readDir) fuel path parent log
        = some w →
      (∀ up, parent = some up → Join up.Path (Split path).2 = path) →
      (∀ msg, listing fs ign path = .error msg → w.file = File.zero) ∧
      (∀ es, listing fs ign path = .ok es → ∃ files,
        w.file = File.mk (if parent.isSome then (Split path).2
          else Join (Split path).1 (Split path).2) parent 0 true files ∧
        (files.map File.skeleton).Perm (es.map (expected fs ign
          (Up.mk (if parent.isSome then (Split path).2
            else Join (Split path).1 (Split path).2) parent) path))) ∧
      MirrorsBelow fs ign w.file.Files := by
  apply walk_induct sched _
    (fun _ path parent _ w =>
      (∀ up, parent = some up → Join up.Path (Split path).2 = path) →
      (∀ msg, listing fs ign path = .error msg → w.file = File.zero) ∧
      (∀ es, listing fs ign path = .ok es → ∃ files,
        w.file = File.mk (if parent.isSome then (Split path).2
          else Join (Split path).1 (Split path).2) parent 0 true files ∧
        (files.map File.skeleton).Perm (es.map (expected fs ign
          (Up.mk (if parent.isSome then (Split path).2
            else Join (Split path).1 (Split path).2) parent) path))) ∧
      MirrorsBelow fs ign w.file.Files)
    (fun _ path up entries _ r =>
      (∀ n, Join up.Path n = Join path n) →
      (∀ e ∈ entries, e.IsDir = true → validName e.Name = true) →
      (r.files.map File.skeleton).Perm (entries.map (expected fs ign up path)) ∧
      MirrorsBelow fs ign r.files)
  · intro _ path parent log e log1 h _
    have hl := readDir_listing fs ign path log
    rw [h] at hl
    refine ⟨fun _ _ => rfl, ?_, ?_⟩
    · intro es hes
      rw [← hl] at hes
      simp at hes
    · intro m hm
      simp [File.zero, File.Files, nodesList] at hm
  · intro _ path parent log entries log1 r h hq hinv
    have hl := readDir_listing fs ign path log
    rw [h] at hl
    have happrox : ∀ n, Join (Up.mk (if parent.isSome then (Split path).2
        else Join (Split path).1 (Split path).2) parent).Path n = Join path n := by
      intro n
      cases parent with
      | none => simp only [Option.isSome_none, Bool.false_eq_true, if_false, Up.Path]
                exact Join_rootName path n
      | some up => simp only [Option.isSome_some, if_true, Up.Path]
                   rw [hinv up rfl]
    obtain ⟨hperm, hbelow⟩ := hq happrox (readDir_entries_valid fs ign hwell path log log1 entries h)
    refine ⟨?_, ?_, hbelow⟩
    · intro msg hmsg
      rw [← hl] at hmsg
      simp at hmsg
    · intro es hes
      rw [← hl] at hes
      simp only [Except.ok.injEq] at hes
      subst hes
      exact ⟨r.files, rfl, hperm⟩
  · intro _ path up log _ _
    refine ⟨by simp, ?_⟩
    intro m hm
    simp [nodesList] at hm
  · intro _ path up e rest log sub r hd hp hq happrox hvalid
    have hv := hvalid e (List.mem_cons_self _ _) hd
    have hname : (Split (Join path e.Name)).2 = e.Name := Split_Join path e.Name hv
    have hinv : ∀ up', some up = some up' →
        Join up'.Path (Split (Join path e.Name)).2 = Join path e.Name := by
      intro up' hup
      simp only [Option.some.injEq] at hup
      subst hup
      rw [hname, happrox]
    obtain ⟨herr, hok, hbelow⟩ := hp hinv
    obtain ⟨hperm, hbelow2⟩ := hq happrox (fun x hx => hvalid x (List.mem_cons_of_mem _ hx))
    constructor
    · refine (map_insertAt_perm File.skeleton _ _ _).trans ?_
      simp only [List.map_cons]
      have hsk : sub.file.skeleton = expected fs ign up path e := by
        unfold expected
        simp only [hd, if_true]
        cases hls : listing fs ign (Join path e.Name) with
        | error msg =>
          rw [herr msg hls]
          simp [File.skeleton, File.zero, File.Name, File.Parent, File.IsDir, File.Size]
        | ok es =>
          obtain ⟨files, hfile, _⟩ := hok es hls
          rw [hfile]
          simp [File.skeleton, File.Name, File.Parent, File.IsDir, File.Size, hname]
      rw [hsk]
      exact List.Perm.cons _ hperm
    · intro m hm hmd
      rcases mem_nodesList_insertAt.1 hm with h | h
      · cases hls : listing fs ign (Join path e.Name) with
        | error msg =>
          rw [herr msg hls] at h
          simp only [File.zero, nodes_mk, nodesList, List.mem_singleton] at h
          subst h
          simp [File.IsDir] at hmd
        | ok es =>
          obtain ⟨files, hfile, hperm1⟩ := hok es hls
          rw [hfile, nodes_mk] at h
          rcases List.mem_cons.1 h with h1 | h1
          · subst h1
            simp only [Option.isSome_some, if_true] at hperm1 ⊢
            have hpath : (File.mk (Split (Join path e.Name)).2 (some up) 0 true files).Path
                = Join path e.Name := by
              simp only [File.Path, File.up, File.Name, File.Parent, Up.Path]
              exact hinv up rfl
            rw [hpath]
            exact ⟨es, hls, hperm1⟩
          · apply hbelow m _ hmd
            rw [hfile]
            exact h1
      · exact hbelow2 m h hmd
  · intro _ path up e rest log r hd hq happrox hvalid
    obtain ⟨hperm, hbelow2⟩ := hq happrox (fun x hx => hvalid x (List.mem_cons_of_mem _ hx))
    constructor
    · simp only [List.map_cons]
      have hsk : (File.mk e.Name (some up) e.Size false []).skeleton
          = expected fs ign up path e := by
        simp [expected, hd, File.skeleton, File.Name, File.Parent, File.IsDir, File.Size]
      rw [hsk]
      exact List.Perm.cons _ hperm
    · intro m hm hmd
      simp only [nodesList, nodes_mk, List.cons_append, List.nil_append, List.mem_cons] at hm
      rcases hm with h | h
      · subst h
        simp [File.IsDir] at hmd
      · exact hbelow2 m h hmd


theorem File.Framed.fields {f g : File} (h : f.Framed g) :
    g.Name = f.Name ∧ g.Parent = f.Parent ∧ g.IsDir = f.IsDir ∧
      (f.IsDir = false → g.Size = f.Size) ∧ FramedList f.Files g.Files := by
  cases f with
  | mk n p s d fs =>
    simp only [File.Framed] at h
    exact h

theorem File.Framed.skeleton {f g : File} (h : f.Framed g) : g.skeleton = f.skeleton := by
  obtain ⟨h1, h2, h3, h4, _⟩ := h.fields
  unfold File.skeleton
  rw [h1, h2, h3]
  cases hd : f.IsDir
  · simp [h4 hd]
  · simp

theorem File.Framed.path {f g : File} (h : f.Framed g) : g.Path = f.Path := by
  obtain ⟨h1, h2, _⟩ := h.fields
  simp only [File.Path, File.up, h1, h2]

theorem File.Framed.up {f g : File} (h : f.Framed g) : g.up = f.up := by
  obtain ⟨h1, h2, _⟩ := h.fields
  simp only [File.up, h1, h2]

theorem FramedList.map_skeleton : ∀ {fs gs : List File}, FramedList fs gs →
    gs.map File.skeleton = fs.map File.skeleton
  | [], gs, h => by
    simp only [FramedList] at h
    subst h
    rfl
  | f :: fs, [], h => by simp [FramedList] at h
  | f :: fs, g :: gs, h => by
    simp only [FramedList] at h
    simp only [List.map_cons, h.1.skeleton, FramedList.map_skeleton h.2]

theorem FramedList.length : ∀ {fs gs : List File}, FramedList fs gs → gs.length = fs.length
  | [], gs, h => by
    simp only [FramedList] at h
    subst h
    rfl
  | f :: fs, [], h => by simp [FramedList] at h
  | f :: fs, g :: gs, h => by
    simp only [FramedList] at h
    simp only [List.length_cons, FramedList.length h.2]

mutual
theorem File.Framed.nodes : ∀ (f g : File), f.Framed g → ∀ m ∈ g.nodes, ∃ n ∈ f.nodes, n.Framed m
  | .mk n p s d fs, g, h, m, hm => by
    rcases mem_nodes.1 hm with h1 | ⟨c, hc, hmc⟩
    · subst h1
      exact ⟨_, mem_nodes_self _, h⟩
    · have hl := h.fields.2.2.2.2
      simp only [File.Files] at hl
      obtain ⟨x, hx, hxm⟩ := FramedList.nodesList_of fs g.Files hl m (mem_nodesList.2 ⟨c, hc, hmc⟩)
      refine ⟨x, ?_, hxm⟩
      rw [nodes_mk]
      exact List.mem_cons_of_mem _ hx
theorem FramedList.nodesList_of : ∀ (fs gs : List File), FramedList fs gs →
    ∀ m ∈ nodesList gs, ∃ n ∈ nodesList fs, n.Framed m
  | [], gs, h, m, hm => by
    simp only [FramedList] at h
    subst h
    simp [nodesList] at hm
  | f :: fs, [], h, m, hm => by simp [FramedList] at h
  | f :: fs, g :: gs, h, m, hm => by
    simp only [FramedList] at h
    simp only [nodesList, List.mem_append] at hm ⊢
    rcases hm with h1 | h1
    · obtain ⟨x, hx, hxm⟩ := File.Framed.nodes f g h.1 m h1
      exact ⟨x, Or.inl hx, hxm⟩
    · obtain ⟨x, hx, hxm⟩ := FramedList.nodesList_of fs gs h.2 m h1
      exact ⟨x, Or.inr hx, hxm⟩
end

mutual
theorem File.Framed.nodes_inv : ∀ (f g : File), f.Framed g → ∀ n ∈ f.nodes, ∃ m ∈ g.nodes, n.Framed m
  | .mk n p s d fs, g, h, x, hx => by
    rw [nodes_mk] at hx
    rcases List.mem_cons.1 hx with h1 | h1
    · subst h1
      exact ⟨g, mem_nodes_self _, h⟩
    · have hl := h.fields.2.2.2.2
      simp only [File.Files] at hl
      obtain ⟨m, hm, hxm⟩ := FramedList.nodesList_inv fs g.Files hl x h1
      obtain ⟨c, hc, hmc⟩ := mem_nodesList.1 hm
      exact ⟨m, mem_nodes.2 (Or.inr ⟨c, hc, hmc⟩), hxm⟩
theorem FramedList.nodesList_inv : ∀ (fs gs : List File), FramedList fs gs →
    ∀ n ∈ nodesList fs, ∃ m ∈ nodesList gs, n.Framed m
  | [], gs, h, x, hx => by simp [nodesList] at hx
  | f :: fs, [], h, x, hx => by simp [FramedList] at h
  | f :: fs, g :: gs, h, x, hx => by
    simp only [FramedList] at h
    simp only [nodesList, List.mem_append] at hx ⊢
    rcases hx with h1 | h1
    · obtain ⟨m, hm, hxm⟩ := File.Framed.nodes_inv f g h.1 x h1
      exact ⟨m, Or.inl hm, hxm⟩
    · obtain ⟨m, hm, hxm⟩ := FramedList.nodesList_inv fs gs h.2 x h1
      exact ⟨m, Or.inr hm, hxm⟩
end

theorem MirrorsBelow.of_framed {fs : Snapshot} {ign : ShouldIgnoreFolder} {files gs : List File}
    (h : MirrorsBelow fs ign files) (hf : FramedList files gs) : MirrorsBelow fs ign gs := by
  intro m hm hd
  obtain ⟨n, hn, hnm⟩ := FramedList.nodesList_of files gs hf m hm
  have hfields := hnm.fields
  obtain ⟨es, hes, hperm⟩ := h n hn (by rw [← hfields.2.2.1]; exact hd)
  refine ⟨es, by rw [hnm.path]; exact hes, ?_⟩
  rw [hnm.path, hnm.up, FramedList.map_skeleton hfields.2.2.2.2]
  exact hperm

theorem File.LeavesChildless.framed {f g : File} (h : f.LeavesChildless) (hf : f.Framed g) :
    g.LeavesChildless := by
  intro m hm hd
  obtain ⟨n, hn, hnm⟩ := File.Framed.nodes f g hf m hm
  have hfields := hnm.fields
  have hnf := h n hn (by rw [← hfields.2.2.1]; exact hd)
  have hlen := FramedList.length hfields.2.2.2.2
  rw [hnf] at hlen
  exact List.eq_nil_of_length_eq_zero hlen


mutual
theorem mem_nodes_trans : ∀ (t : File) (m c : File), m ∈ t.nodes → c ∈ m.nodes → c ∈ t.nodes
  | .mk n p s d fs, m, c, hm, hc => by
    rw [nodes_mk] at hm ⊢
    rcases List.mem_cons.1 hm with h | h
    · subst h
      rw [nodes_mk] at hc
      exact hc
    · exact List.mem_cons_of_mem _ (mem_nodesList_trans fs m c h hc)
theorem mem_nodesList_trans : ∀ (fs : List File) (m c : File), m ∈ nodesList fs → c ∈ m.nodes →
    c ∈ nodesList fs
  | [], m, c, hm, _ => by simp [nodesList] at hm
  | f :: rest, m, c, hm, hc => by
    simp only [nodesList, List.mem_append] at hm ⊢
    rcases hm with h | h
    · exact Or.inl (mem_nodes_trans f m c h hc)
    · exact Or.inr (mem_nodesList_trans rest m c h hc)
end

theorem child_mem_nodesList {t m c : File} (hm : m ∈ t.nodes) (hc : c ∈ m.Files) :
    c ∈ nodesList t.Files := by
  have h1 : c ∈ m.nodes := mem_nodes.2 (Or.inr ⟨c, hc, mem_nodes_self c⟩)
  have h2 : c ∈ t.nodes := mem_nodes_trans t m c hm h1
  rcases mem_nodes.1 hm with h | ⟨c0, hc0, hmc0⟩
  · subst h
    exact mem_nodesList.2 ⟨c, hc, mem_nodes_self c⟩
  · exact mem_nodesList.2 ⟨c0, hc0, mem_nodes_trans c0 m c hmc0 h1⟩

theorem mem_nodes_of_mem_nodesList {t m : File} (h : m ∈ nodesList t.Files) : m ∈ t.nodes := by
  obtain ⟨c, hc, hm⟩ := mem_nodesList.1 h
  exact mem_nodes.2 (Or.inr ⟨c, hc, hm⟩)

/-- The tree returned by `WalkFolder` mirrors the snapshot. -/
theorem WalkFolder_mirror (sched : String → Nat) (fuel : Nat) (root : String) (fs : Snapshot)
    (ign : ShouldIgnoreFolder) (w : Walked) (hwell : fs.WellNamed)
    (h : WalkFolder sched fuel root fs.readDir ign = some w) :
    (∀ msg, listing fs ign root = .error msg → w.file = File.zero) ∧
    (∀ es, listing fs ign root = .ok es →
      w.file.Name = Join (Split root).1 (Split root).2 ∧ w.file.Parent = none ∧
      w.file.IsDir = true ∧
      (w.file.Files.map File.skeleton).Perm (es.map (expected fs ign w.file.up root))) ∧
    MirrorsBelow fs ign w.file.Files ∧ w.file.LeavesChildless := by
  unfold WalkFolder at h
  split at h
  · exact absurd h (by simp)
  · rename_i w0 hw0
    simp only [Option.some.injEq] at h
    subst h
    simp only
    obtain ⟨herr, hok, hbelow⟩ := walk_mirror sched fs ign hwell _ _ _ _ _ hw0 (by simp)
    have hfr := UpdateSize_framed w0.file
    have hfields := hfr.fields
    refine ⟨?_, ?_, hbelow.of_framed hfields.2.2.2.2,
      (walk_leavesChildless _ _ _ _ _ _ _ hw0).framed hfr⟩
    · intro msg hmsg
      rw [herr msg hmsg]
      rfl
    · intro es hes
      obtain ⟨files, hfile, hperm⟩ := hok es hes
      simp only [Option.isSome_none, Bool.false_eq_true, if_false] at hfile hperm
      have hn : w0.file.Name = Join (Split root).1 (Split root).2 := by rw [hfile]; rfl
      have hp : w0.file.Parent = none := by rw [hfile]; rfl
      have hd : w0.file.IsDir = true := by rw [hfile]; rfl
      have hf : w0.file.Files = files := by rw [hfile]; rfl
      refine ⟨by rw [hfields.1, hn], by rw [hfields.2.1, hp], by rw [hfields.2.2.1, hd], ?_⟩
      rw [FramedList.map_skeleton hfields.2.2.2.2, hf, hfr.up]
      simp only [File.up, hn, hp]
      exact hperm


theorem skeleton_eq_dir {c : File} {name : String} {up : Up}
    (h : c.skeleton = ⟨name, some up, true, 0⟩) :
    c.Name = name ∧ c.Parent = some up ∧ c.IsDir = true := by
  unfold File.skeleton at h
  simp only [Skeleton.mk.injEq] at h
  exact ⟨h.1, h.2.1, h.2.2.1⟩

theorem path_of_parent {c : File} {up : Up} (h : c.Parent = some up) :
    c.Path = Join up.Path c.Name := by
  simp only [File.Path, File.up, h, Up.Path]

/-- Every path that is reached and listed has its node in the tree. -/
theorem node_of_reached (sched : String → Nat) (fuel : Nat) (root : String) (fs : Snapshot)
    (ign : ShouldIgnoreFolder) (w : Walked) (hwell : fs.WellNamed)
    (h : WalkFolder sched fuel root fs.readDir ign = some w)
    (p : String) (hp : Reached fs ign root p) :
    ∀ es, listing fs ign p = .ok es →
      ∃ m ∈ w.file.nodes, m.IsDir = true ∧ (∀ n, Join m.Path n = Join p n) ∧
        (m.Files.map File.skeleton).Perm (es.map (expected fs ign m.up p)) := by
  obtain ⟨_, hok, hbelow, _⟩ := WalkFolder_mirror sched fuel root fs ign w hwell h
  induction hp with
  | root =>
    intro es hes
    obtain ⟨hn, hpar, hd, hperm⟩ := hok es hes
    refine ⟨w.file, mem_nodes_self _, hd, ?_, hperm⟩
    intro n
    have : w.file.Path = Join (Split root).1 (Split root).2 := by
      simp only [File.Path, File.up, hpar, Up.Path, hn]
    rw [this]
    exact Join_rootName root n
  | step p es0 e _ hes0 he hd ih =>
    intro es hes
    obtain ⟨m0, hm0, _, happrox, hperm0⟩ := ih es0 hes0
    have hexp : expected fs ign m0.up p e = ⟨e.Name, some m0.up, true, 0⟩ := by
      simp [expected, hd, hes]
    have hmem : expected fs ign m0.up p e ∈ m0.Files.map File.skeleton :=
      hperm0.mem_iff.2 (List.mem_map.2 ⟨e, he, rfl⟩)
    obtain ⟨c, hc, hsk⟩ := List.mem_map.1 hmem
    rw [hexp] at hsk
    obtain ⟨hcn, hcp, hcd⟩ := skeleton_eq_dir hsk
    have hpath : c.Path = Join p e.Name := by
      rw [path_of_parent hcp, hcn]
      exact happrox e.Name
    have hcmem := child_mem_nodesList hm0 hc
    obtain ⟨es1, hes1, hperm1⟩ := hbelow c hcmem hcd
    rw [hpath] at hes1 hperm1
    rw [hes] at hes1
    simp only [Except.ok.injEq] at hes1
    subst hes1
    exact ⟨c, mem_nodes_of_mem_nodesList hcmem, hcd, fun n => by rw [hpath], hperm1⟩

theorem exampleFs_wellNamed : exampleFs.WellNamed := by
  intro p es hp e he hd
  unfold exampleFs at hp
  split at hp
  · simp only [Except.ok.injEq] at hp
    subst hp
    simp only [List.mem_cons, List.mem_singleton, List.not_mem_nil, or_false] at he
    rcases he with h | h <;> subst h
    · simp at hd
    · decide
  · split at hp
    · simp only [Except.ok.injEq] at hp
      subst hp
      simp only [List.mem_singleton] at he
      subst he
      simp at hd
    · simp at hp

theorem rootName_of_clean (root : String) (hclean : Clean root = root) :
    Join (Split root).1 (Split root).2 = root := by
  have hne : root.data ≠ [] := by
    intro hd
    have hr : root = "" := String.ext hd
    rw [hr] at hclean
    exact absurd hclean (by decide)
  rw [rootName_eq root hne]
  exact hclean

theorem eq_zero_of_skeleton {c : File} (hsk : c.skeleton = ⟨"", none, false, 0⟩)
    (hfiles : c.Files = []) : c = File.zero := by
  cases c with
  | mk n p s d fs =>
    simp only [File.skeleton, File.Name, File.Parent, File.IsDir, File.Size,
      Skeleton.mk.injEq] at hsk
    obtain ⟨h1, h2, h3, h4⟩ := hsk
    subst h1 h2 h3
    simp only [Bool.false_eq_true, if_false] at h4
    simp only [File.Files] at hfiles
    subst h4 hfiles
    rfl

theorem child_of_expected (fs : Snapshot) (ign : ShouldIgnoreFolder) (hwell : fs.WellNamed)
    (m c : File) (p : String) (es : List FileInfo) (hes : listing fs ign p = .ok es)
    (hperm : (m.Files.map File.skeleton).Perm (es.map (expected fs ign m.up p)))
    (hpath : ∀ n, Join m.Path n = Join p n)
    (hc : c ∈ m.Files) (hleaf : c.IsDir = false → c.Files = []) :
    ∃ e ∈ es,
      (c.Parent = some m.up ∧ c.Name = e.Name ∧ c.IsDir = e.IsDir ∧
        c.Path = Join p e.Name ∧ (e.IsDir = true → c.Name = (Split (Join p e.Name)).2)) ∨
      (e.IsDir = true ∧ (∃ msg, listing fs ign (Join p e.Name) = .error msg) ∧
        c = File.zero) := by
  have hmem : c.skeleton ∈ es.map (expected fs ign m.up p) :=
    hperm.mem_iff.1 (List.mem_map.2 ⟨c, hc, rfl⟩)
  obtain ⟨e, he, hsk⟩ := List.mem_map.1 hmem
  refine ⟨e, he, ?_⟩
  have hvalid : e.IsDir = true → validName e.Name = true := by
    intro hd
    have hne : ign p = false := by
      cases hi : ign p
      · rfl
      · simp [listing, hi] at hes
        subst hes
        simp at he
    have : fs p = .ok es := by simpa [listing, hne] using hes
    exact hwell p es this e he hd
  unfold expected at hsk
  cases hd : e.IsDir
  · simp only [hd, Bool.false_eq_true, if_false] at hsk
    left
    simp only [File.skeleton, Skeleton.mk.injEq] at hsk
    obtain ⟨h1, h2, h3, _⟩ := hsk
    refine ⟨h2.symm, h1.symm, h3.symm, ?_, fun hf => absurd hf (by simp)⟩
    rw [path_of_parent h2.symm, ← h1]
    exact hpath _
  · simp only [hd, if_true] at hsk
    cases hl : listing fs ign (Join p e.Name) with
    | error msg =>
      right
      rw [hl] at hsk
      simp only at hsk
      have hcd : c.IsDir = false := by
        simp only [File.skeleton, Skeleton.mk.injEq] at hsk
        exact hsk.2.2.1.symm
      exact ⟨rfl, ⟨msg, rfl⟩, eq_zero_of_skeleton hsk.symm (hleaf hcd)⟩
    | ok es1 =>
      left
      rw [hl] at hsk
      simp only at hsk
      obtain ⟨hcn, hcp, hcd⟩ := skeleton_eq_dir hsk.symm
      refine ⟨hcp, hcn, hcd, ?_, fun _ => ?_⟩
      · rw [path_of_parent hcp, hcn]
        exact hpath _
      · rw [hcn, Split_Join p e.Name (hvalid hd)]

/-- C6, amended: for a clean root path and a snapshot whose directory entries
carry file names, a root whose listing does not fail has no parent and the
input path as `Name` and as `Path()`; every node with `IsDir = true` has, up to
their order, one child for every entry of the listing of its `Path()`; the
child for an entry has that node as `Parent`, the name of the entry as `Name`
(the base name of its path) and the path of the entry as `Path()`, unless the
entry is a directory whose listing fails: its child is `&File{}`, as is the
root when the listing of the root fails. -/
theorem WalkFolder_paths (sched : String → Nat) (fuel : Nat) (root : String) (fs : Snapshot)
    (ign : ShouldIgnoreFolder) (w : Walked) (hwell : fs.WellNamed) (hclean : Clean root = root)
    (h : WalkFolder sched fuel root fs.readDir ign = some w) :
    (∀ msg, listing fs ign root = .error msg → w.file = File.zero) ∧
    (∀ es, listing fs ign root = .ok es →
      w.file.Parent = none ∧ w.file.Name = root ∧ w.file.Path = root) ∧
    (∀ m ∈ w.file.nodes, m.IsDir = true →
      ∃ es, listing fs ign m.Path = .ok es ∧
        (m.Files.map File.skeleton).Perm (es.map (expected fs ign m.up m.Path)) ∧
        ∀ c ∈ m.Files, ∃ e ∈ es,
          (c.Parent = some m.up ∧ c.Name = e.Name ∧ c.IsDir = e.IsDir ∧
            c.Path = Join m.Path e.Name ∧
            (e.IsDir = true → c.Name = (Split (Join m.Path e.Name)).2)) ∨
          (e.IsDir = true ∧ (∃ msg, listing fs ign (Join m.Path e.Name) = .error msg) ∧
            c = File.zero)) := by
  obtain ⟨herr, hok, hbelow, hleaves⟩ := WalkFolder_mirror sched fuel root fs ign w hwell h
  have hrn := rootName_of_clean root hclean
  have hrootpath : ∀ es, listing fs ign root = .ok es → w.file.Path = root := by
    intro es hes
    obtain ⟨hn, hp, _, _⟩ := hok es hes
    simp only [File.Path, File.up, hp, Up.Path, hn, hrn]
  refine ⟨herr, ?_, ?_⟩
  · intro es hes
    obtain ⟨hn, hp, _, _⟩ := hok es hes
    exact ⟨hp, by rw [hn, hrn], hrootpath es hes⟩
  · intro m hm hmd
    have hmirror : ∃ es, listing fs ign m.Path = .ok es ∧
        (m.Files.map File.skeleton).Perm (es.map (expected fs ign m.up m.Path)) := by
      rcases mem_nodes.1 hm with h1 | ⟨c0, hc0, hmc0⟩
      · subst h1
        cases hl : listing fs ign root with
        | error msg =>
          rw [herr msg hl] at hmd
          simp [File.zero, File.IsDir] at hmd
        | ok es =>
          obtain ⟨_, _, _, hperm⟩ := hok es hl
          rw [hrootpath es hl]
          exact ⟨es, hl, hperm⟩
      · exact hbelow m (mem_nodesList.2 ⟨c0, hc0, hmc0⟩) hmd
    obtain ⟨es, hes, hperm⟩ := hmirror
    refine ⟨es, hes, hperm, ?_⟩
    intro c hc
    exact child_of_expected fs ign hwell m c m.Path es hes hperm (fun _ => rfl) hc
      (hleaves c (mem_nodes_of_mem_nodesList (child_mem_nodesList hm hc)))

/-- C6, amended, on the example. -/
theorem WalkFolder_paths_witness :
    ∃ w, WalkFolder atOnce 3 "/r" exampleFs.readDir ignoreNothing = some w ∧
      w.file.nodes.map File.Path = ["/r", "/r/a", "/r/b", "/r/b/c"] ∧
      (∀ msg, listing exampleFs ignoreNothing "/r" = .error msg → w.file = File.zero) ∧
      (∀ es, listing exampleFs ignoreNothing "/r" = .ok es →
        w.file.Parent = none ∧ w.file.Name = "/r" ∧ w.file.Path = "/r") ∧
      (∀ m ∈ w.file.nodes, m.IsDir = true →
        ∃ es, listing exampleFs ignoreNothing m.Path = .ok es ∧
          (m.Files.map File.skeleton).Perm
            (es.map (expected exampleFs ignoreNothing m.up m.Path)) ∧
          ∀ c ∈ m.Files, ∃ e ∈ es,
            (c.Parent = some m.up ∧ c.Name = e.Name ∧ c.IsDir = e.IsDir ∧
              c.Path = Join m.Path e.Name ∧
              (e.IsDir = true → c.Name = (Split (Join m.Path e.Name)).2)) ∨
            (e.IsDir = true ∧
              (∃ msg, listing exampleFs ignoreNothing (Join m.Path e.Name) = .error msg) ∧
              c = File.zero)) :=
  ⟨_, rfl, rfl,
    WalkFolder_paths atOnce 3 "/r" exampleFs ignoreNothing _ exampleFs_wellNamed rfl rfl⟩

/-- C6 fails as stated: when the listing of `/r/b` fails, the node that stands
for `/r/b` has the empty `Name`, no `Parent`, and the empty `Path()`; no node of
the tree has the path `/r/b`. -/
theorem WalkFolder_paths_counterexample :
    Clean "/r" = "/r" ∧
    ∃ w, WalkFolder atOnce 3 "/r" failingFs.readDir ignoreNothing = some w ∧
      w.file.Files.map (fun c => (c.Name, c.Parent.isSome, c.Path)) =
        [("a", true, "/r/a"), ("", false, "")] ∧
      ¬ ∃ c ∈ w.file.nodes, c.Path = "/r/b" :=
  ⟨rfl, _, rfl, rfl, by decide⟩

/-! ## Completeness of the tree -/

theorem walk_leaves (sched : String → Nat) (fs : Snapshot) (ign : ShouldIgnoreFolder)
    (hwell : fs.WellNamed) :
    ∀ fuel path parent log w,
      walkSubFolderConcurrently sched (ignoringReadDir ign fs.readDir) fuel path parent log
        = some w →
      (∀ up, parent = some up → Join up.Path (Split path).2 = path) →
      (∀ q, (∃ n ∈ w.file.nodes, n.IsFile ∧ n.Path = q) ↔ q ∈ reachableFiles fs ign fuel path) ∧
      (∀ n ∈ w.file.nodes, n.IsDir = false → n.IsFile ∨ n = File.zero) ∧
      (∀ k, reachableFiles fs ign (fuel + k) path = reachableFiles fs ign fuel path) := by
  apply walk_induct sched _
    (fun fuel path parent _ w =>
      (∀ up, parent = some up → Join up.Path (Split path).2 = path) →
      (∀ q, (∃ n ∈ w.file.nodes, n.IsFile ∧ n.Path = q) ↔ q ∈ reachableFiles fs ign fuel path) ∧
      (∀ n ∈ w.file.nodes, n.IsDir = false → n.IsFile ∨ n = File.zero) ∧
      (∀ k, reachableFiles fs ign (fuel + k) path = reachableFiles fs ign fuel path))
    (fun fuel path up entries _ r =>
      (∀ n, Join up.Path n = Join path n) →
      (∀ e ∈ entries, e.IsDir = true → validName e.Name = true) →
      (∀ q, (∃ n ∈ nodesList r.files, n.IsFile ∧ n.Path = q) ↔
        q ∈ entries.flatMap (fun e =>
          if e.IsDir then reachableFiles fs ign fuel (Join path e.Name)
          else [Join path e.Name])) ∧
      (∀ n ∈ nodesList r.files, n.IsDir = false → n.IsFile ∨ n = File.zero) ∧
      (∀ k, entries.flatMap (fun e =>
          if e.IsDir then reachableFiles fs ign (fuel + k) (Join path e.Name)
          else [Join path e.Name]) =
        entries.flatMap (fun e =>
          if e.IsDir then reachableFiles fs ign fuel (Join path e.Name)
          else [Join path e.Name])))
  · intro fuel path parent log e log1 h _
    have hl := readDir_listing fs ign path log
    rw [h] at hl
    simp only at hl
    have hsucc : ∀ k, fuel + 1 + k = (fuel + k) + 1 := fun k => by omega
    refine ⟨?_, ?_, ?_⟩
    · intro q
      simp only [reachableFiles, ← hl, List.not_mem_nil, iff_false, not_exists, not_and]
      intro n hn hf
      simp only [File.zero, nodes_mk, nodesList, List.mem_singleton] at hn
      subst hn
      obtain ⟨_, up, hup⟩ := hf
      simp [File.Parent] at hup
    · intro n hn _
      simp only [File.zero, nodes_mk, nodesList, List.mem_singleton] at hn
      exact Or.inr hn
    · intro k
      rw [hsucc]
      simp only [reachableFiles, ← hl]
  · intro fuel path parent log entries log1 r h hq hinv
    have hl := readDir_listing fs ign path log
    rw [h] at hl
    simp only at hl
    have hsucc : ∀ k, fuel + 1 + k = (fuel + k) + 1 := fun k => by omega
    have happrox : ∀ n, Join (Up.mk (if parent.isSome then (Split path).2
        else Join (Split path).1 (Split path).2) parent).Path n = Join path n := by
      intro n
      cases parent with
      | none => simp only [Option.isSome_none, Bool.false_eq_true, if_false, Up.Path]
                exact Join_rootName path n
      | some up => simp only [Option.isSome_some, if_true, Up.Path]
                   rw [hinv up rfl]
    obtain ⟨h1, h2, h3⟩ := hq happrox (readDir_entries_valid fs ign hwell path log log1 entries h)
    refine ⟨?_, ?_, ?_⟩
    · intro q
      simp only [reachableFiles, ← hl]
      rw [← h1 q]
      simp only [nodes_mk, List.mem_cons, exists_eq_or_imp]
      constructor
      · rintro (⟨hf, _⟩ | h)
        · simp [File.IsFile, File.IsDir] at hf
        · exact h
      · intro h
        exact Or.inr h
    · intro n hn hd
      simp only [nodes_mk, List.mem_cons] at hn
      rcases hn with hn | hn
      · subst hn
        simp [File.IsDir] at hd
      · exact h2 n hn hd
    · intro k
      rw [hsucc]
      simp only [reachableFiles, ← hl]
      exact h3 k
  · intro fuel path up log _ _
    simp [nodesList]
  · intro fuel path up e rest log sub r hd hp hq happrox hvalid
    have hv := hvalid e (List.mem_cons_self _ _) hd
    have hname : (Split (Join path e.Name)).2 = e.Name := Split_Join path e.Name hv
    have hinv : ∀ up', some up = some up' →
        Join up'.Path (Split (Join path e.Name)).2 = Join path e.Name := by
      intro up' hup
      simp only [Option.some.injEq] at hup
      subst hup
      rw [hname, happrox]
    obtain ⟨p1, p2, p3⟩ := hp hinv
    obtain ⟨q1, q2, q3⟩ := hq happrox (fun x hx => hvalid x (List.mem_cons_of_mem _ hx))
    refine ⟨?_, ?_, ?_⟩
    · intro q
      simp only [List.flatMap_cons, hd, if_true, List.mem_append, ← p1 q, ← q1 q,
        mem_nodesList_insertAt]
      constructor
      · rintro ⟨n, hn | hn, hf⟩
        · exact Or.inl ⟨n, hn, hf⟩
        · exact Or.inr ⟨n, hn, hf⟩
      · rintro (⟨n, hn, hf⟩ | ⟨n, hn, hf⟩)
        · exact ⟨n, Or.inl hn, hf⟩
        · exact ⟨n, Or.inr hn, hf⟩
    · intro n hn hnd
      rcases mem_nodesList_insertAt.1 hn with h | h
      · exact p2 n h hnd
      · exact q2 n h hnd
    · intro k
      simp only [List.flatMap_cons, hd, if_true, p3 k, q3 k]
  · intro fuel path up e rest log r hd hq happrox hvalid
    obtain ⟨q1, q2, q3⟩ := hq happrox (fun x hx => hvalid x (List.mem_cons_of_mem _ hx))
    have hleaf : (File.mk e.Name (some up) e.Size false []).IsFile := ⟨rfl, up, rfl⟩
    have hpath : (File.mk e.Name (some up) e.Size false []).Path = Join path e.Name := by
      simp only [File.Path, File.up, File.Name, File.Parent, Up.Path]
      exact happrox _
    refine ⟨?_, ?_, ?_⟩
    · intro q
      simp only [List.flatMap_cons, hd, Bool.false_eq_true, if_false, List.mem_append,
        List.mem_singleton, ← q1 q, nodesList, nodes_mk, List.cons_append, List.nil_append,
        List.mem_cons, exists_eq_or_imp]
      constructor
      · rintro (⟨_, h⟩ | h)
        · left
          rw [← h, hpath]
        · exact Or.inr h
      · rintro (h | h)
        · left
          exact ⟨hleaf, by rw [h, hpath]⟩
        · exact Or.inr h
    · intro n hn hnd
      simp only [nodesList, nodes_mk, List.cons_append, List.nil_append, List.mem_cons] at hn
      rcases hn with h | h
      · subst h
        exact Or.inl hleaf
      · exact q2 n h hnd
    · intro k
      simp only [List.flatMap_cons, hd, Bool.false_eq_true, if_false, q3 k]


theorem File.Framed.eq_of_leaf {n m : File} (h : n.Framed m) (hd : n.IsDir = false)
    (hf : n.Files = []) : m = n := by
  obtain ⟨h1, h2, h3, h4, h5⟩ := h.fields
  have hlen := FramedList.length h5
  rw [hf] at hlen
  have hmf : m.Files = [] := List.eq_nil_of_length_eq_zero hlen
  cases n with
  | mk a b c d e =>
    cases m with
    | mk a2 b2 c2 d2 e2 =>
      simp only [File.Name, File.Parent, File.IsDir, File.Size, File.Files] at h1 h2 h3 h4 hd hf hmf
      subst hd
      rw [h1, h2, h3, h4 rfl, hf, hmf]

/-- C2, amended: for a snapshot whose directory entries carry file names, the
`Path()` values of the nodes that stand for files (`IsDir = false` and a parent)
are the paths of the entries that are not directories and that listing
recursively from the root finds, nothing being found under a folder that is
ignored or whose listing fails; more fuel finds no more. Every other node with
`IsDir = false` is the `&File{}` left for a folder whose listing failed. -/
theorem WalkFolder_complete (sched : String → Nat) (fuel : Nat) (root : String) (fs : Snapshot)
    (ign : ShouldIgnoreFolder) (w : Walked) (hwell : fs.WellNamed)
    (h : WalkFolder sched fuel root fs.readDir ign = some w) :
    (∀ q, (∃ n ∈ w.file.nodes, n.IsFile ∧ n.Path = q) ↔ q ∈ reachableFiles fs ign fuel root) ∧
    (∀ n ∈ w.file.nodes, n.IsDir = false → n.IsFile ∨ n = File.zero) ∧
    (∀ k, reachableFiles fs ign (fuel + k) root = reachableFiles fs ign fuel root) := by
  unfold WalkFolder at h
  split at h
  · exact absurd h (by simp)
  · rename_i w0 hw0
    simp only [Option.some.injEq] at h
    subst h
    simp only
    obtain ⟨h1, h2, h3⟩ := walk_leaves sched fs ign hwell _ _ _ _ w0 hw0 (by simp)
    have hfr := UpdateSize_framed w0.file
    have hchild := walk_leavesChildless _ _ _ _ _ _ _ hw0
    have hsame : ∀ n m : File, n ∈ w0.file.nodes → n.Framed m → n.IsDir = false → m = n :=
      fun n m hn hnm hd => hnm.eq_of_leaf hd (hchild n hn hd)
    refine ⟨?_, ?_, h3⟩
    · intro q
      rw [← h1 q]
      constructor
      · rintro ⟨m, hm, hf, hp⟩
        obtain ⟨n, hn, hnm⟩ := File.Framed.nodes _ _ hfr m hm
        have hnd : n.IsDir = false := by rw [← hnm.fields.2.2.1]; exact hf.1
        have := hsame n m hn hnm hnd
        subst this
        exact ⟨m, hn, hf, hp⟩
      · rintro ⟨n, hn, hf, hp⟩
        obtain ⟨m, hm, hnm⟩ := File.Framed.nodes_inv _ _ hfr n hn
        have := hsame n m hn hnm hf.1
        subst this
        exact ⟨m, hm, hf, hp⟩
    · intro m hm hd
      obtain ⟨n, hn, hnm⟩ := File.Framed.nodes _ _ hfr m hm
      have hnd : n.IsDir = false := by rw [← hnm.fields.2.2.1]; exact hd
      have := hsame n m hn hnm hnd
      subst this
      exact h2 m hn hd

/-- C2, amended, on the example: the files are `/r/a` and `/r/b/c`. -/
theorem WalkFolder_complete_witness :
    ∃ w, WalkFolder atOnce 3 "/r" exampleFs.readDir ignoreNothing = some w ∧
      w.file.leafPaths = ["/r/a", "/r/b/c"] ∧
      reachableFiles exampleFs ignoreNothing 3 "/r" = ["/r/a", "/r/b/c"] ∧
      (∀ q, (∃ n ∈ w.file.nodes, n.IsFile ∧ n.Path = q) ↔
        q ∈ reachableFiles exampleFs ignoreNothing 3 "/r") ∧
      (∀ n ∈ w.file.nodes, n.IsDir = false → n.IsFile ∨ n = File.zero) ∧
      (∀ k, reachableFiles exampleFs ignoreNothing (3 + k) "/r" =
        reachableFiles exampleFs ignoreNothing 3 "/r") :=
  ⟨_, rfl, rfl, rfl,
    WalkFolder_complete atOnce 3 "/r" exampleFs ignoreNothing _ exampleFs_wellNamed rfl⟩

/-- C2 fails as stated: when the listing of `/r/b` fails, the nodes with
`IsDir = false` have the paths `/r/a` and the empty path, and the empty path is
not the path of an entry: listing recursively finds `/r/a` only. -/
theorem WalkFolder_complete_counterexample :
    ∃ w, WalkFolder atOnce 3 "/r" failingFs.readDir ignoreNothing = some w ∧
      w.file.leafPaths = ["/r/a", ""] ∧
      reachableFiles failingFs ignoreNothing 3 "/r" = ["/r/a"] ∧
      ¬ (∀ q, q ∈ w.file.leafPaths ↔ q ∈ reachableFiles failingFs ignoreNothing 3 "/r") :=
  ⟨_, rfl, rfl, rfl, fun hall => absurd ((hall "").1 (by decide)) (by decide)⟩

/-! ## Failing listings -/

/-- With more fuel than the root is high, the walker returns. -/
theorem walk_returns (sched : String → Nat) (fs : Snapshot) (ign : ShouldIgnoreFolder)
    (height : String → Nat) (hshallow : Shallow fs ign height) :
    ∀ fuel path parent log, height path < fuel →
      ∃ w, walkSubFolderConcurrently sched (ignoringReadDir ign fs.readDir) fuel path parent log
        = some w := by
  intro fuel
  induction fuel with
  | zero => intro path parent log h; omega
  | succ fuel ih =>
    intro path parent log hfuel
    have hloop : ∀ (up : Up) (entries : List FileInfo),
        (∀ e ∈ entries, e.IsDir = true → height (Join path e.Name) < fuel) →
        ∀ log, ∃ r, walkEntries sched
          (walkSubFolderConcurrently sched (ignoringReadDir ign fs.readDir) fuel)
          path up entries log = some r := by
      intro up entries
      induction entries with
      | nil => intro _ log; exact ⟨_, rfl⟩
      | cons e rest ihr =>
        intro hh log
        have hrest := ihr (fun x hx => hh x (List.mem_cons_of_mem _ hx))
        simp only [walkEntries]
        cases hd : e.IsDir
        · simp only [Bool.false_eq_true, if_false]
          obtain ⟨r, hr⟩ := hrest log
          rw [hr]
          exact ⟨_, rfl⟩
        · simp only [if_true]
          obtain ⟨sub, hsub⟩ := ih (Join path e.Name) (some up) log
            (hh e (List.mem_cons_self _ _) hd)
          rw [hsub]
          obtain ⟨r, hr⟩ := hrest sub.log
          simp only [hr]
          exact ⟨_, rfl⟩
    simp only [walkSubFolderConcurrently]
    have hl := readDir_listing fs ign path log
    cases hrd : ignoringReadDir ign fs.readDir path log with
    | mk res log1 =>
      rw [hrd] at hl
      simp only at hl
      cases res with
      | error msg => exact ⟨_, rfl⟩
      | ok entries =>
        simp only
        obtain ⟨r, hr⟩ := hloop (Up.mk (if parent.isSome then (Split path).2
          else Join (Split path).1 (Split path).2) parent) entries
          (fun e he hd => by
            have := hshallow path entries hl.symm e he hd
            omega) log1
        rw [hr]
        exact ⟨_, rfl⟩

theorem readDir_eq (fs : Snapshot) (ign : ShouldIgnoreFolder) (path : String)
    (log : List String) :
    ignoringReadDir ign fs.readDir path log =
      (listing fs ign path, if ign path then log else log ++ [path]) := by
  unfold ignoringReadDir listing Snapshot.readDir
  split <;> rfl

theorem blankList_eq_map (d : String) (fs : List File) : blankList d fs = fs.map (File.blank d) := by
  induction fs with
  | nil => rfl
  | cons f r ih => simp [blankList, ih]

theorem blank_mk (d : String) (n : String) (p : Option Up) (s : Int) (dir : Bool)
    (fs : List File) :
    (File.mk n p s dir fs).blank d =
      if dir = true ∧ (Up.mk n p).Path = d then File.zero
      else File.mk n p s dir (fs.map (File.blank d)) := by
  simp only [File.blank, blankList_eq_map]

theorem blank_zero (d : String) : File.zero.blank d = File.zero := by
  simp [File.zero, blank_mk]

theorem blankBelow_zero (d : String) : File.zero.blankBelow d = File.zero := by
  simp [File.zero, File.blankBelow, File.Name, File.Parent, File.Size, File.IsDir, File.Files,
    blankList]

theorem blank_leaf (d : String) (n : String) (p : Option Up) (s : Int) :
    (File.mk n p s false []).blank d = File.mk n p s false [] := by
  simp [blank_mk]

theorem insertAt_map (f : File → File) (k : Nat) (x : File) (l : List File) :
    (insertAt k x l).map f = insertAt k (f x) (l.map f) := by
  simp [insertAt, List.map_take, List.map_drop]

theorem listing_same (fs1 fs2 : Snapshot) (ign : ShouldIgnoreFolder) (d : String)
    (hsame : ∀ p, p ≠ d → fs1 p = fs2 p) (p : String) (hp : p ≠ d) :
    listing fs1 ign p = listing fs2 ign p := by
  unfold listing
  rw [hsame p hp]

/-- The walk of a snapshot in which the listing of `d` fails, compared with the
walk of a snapshot that differs from it at `d` only. -/
theorem walk_two_runs (sched : String → Nat) (fs1 fs2 : Snapshot) (ign : ShouldIgnoreFolder)
    (d : String) (hwell : fs2.WellNamed) (hign : ign d = false)
    (herr : ∃ msg, fs1 d = .error msg) (hsame : ∀ p, p ≠ d → fs1 p = fs2 p) :
    ∀ fuel path parent log2 w2,
      walkSubFolderConcurrently sched (ignoringReadDir ign fs2.readDir) fuel path parent log2
        = some w2 →
      (∀ up, parent = some up → Join up.Path (Split path).2 = path) →
      ∀ log1, ∃ w1,
        walkSubFolderConcurrently sched (ignoringReadDir ign fs1.readDir) fuel path parent log1
          = some w1 ∧
        w1.file = if path = d then File.zero else w2.file.blankBelow d := by
  intro fuel
  induction fuel with
  | zero => intro path parent log2 w2 h; simp [walkSubFolderConcurrently] at h
  | succ fuel ih =>
    have hloop : ∀ (path : String) (up : Up) (entries : List FileInfo),
        (∀ n, Join up.Path n = Join path n) →
        (∀ e ∈ entries, e.IsDir = true → validName e.Name = true) →
        ∀ log2 r2, walkEntries sched
          (walkSubFolderConcurrently sched (ignoringReadDir ign fs2.readDir) fuel)
          path up entries log2 = some r2 →
        ∀ log1, ∃ r1, walkEntries sched
          (walkSubFolderConcurrently sched (ignoringReadDir ign fs1.readDir) fuel)
          path up entries log1 = some r1 ∧ r1.files = r2.files.map (File.blank d) := by
      intro path up entries happrox
      induction entries with
      | nil =>
        intro _ log2 r2 h2 log1
        simp only [walkEntries, Option.some.injEq] at h2
        subst h2
        exact ⟨_, rfl, rfl⟩
      | cons e rest ihr =>
        intro hvalid log2 r2 h2 log1
        have hrest := ihr (fun x hx => hvalid x (List.mem_cons_of_mem _ hx))
        simp only [walkEntries] at h2 ⊢
        cases hd : e.IsDir
        · simp only [hd, Bool.false_eq_true, if_false] at h2 ⊢
          split at h2
          · exact absurd h2 (by simp)
          · rename_i r2a hr2a
            simp only [Option.some.injEq] at h2
            subst h2
            obtain ⟨r1a, hr1a, hfiles⟩ := hrest log2 r2a hr2a log1
            rw [hr1a]
            refine ⟨_, rfl, ?_⟩
            simp only [List.map_cons, blank_leaf, hfiles]
        · simp only [hd, if_true] at h2 ⊢
          split at h2
          · exact absurd h2 (by simp)
          · rename_i sub2 hsub2
            split at h2
            · exact absurd h2 (by simp)
            · rename_i r2a hr2a
              simp only [Option.some.injEq] at h2
              subst h2
              have hv := hvalid e (List.mem_cons_self _ _) hd
              have hname : (Split (Join path e.Name)).2 = e.Name := Split_Join path e.Name hv
              have hinv : ∀ up', some up = some up' →
                  Join up'.Path (Split (Join path e.Name)).2 = Join path e.Name := by
                intro up' hup
                simp only [Option.some.injEq] at hup
                subst hup
                rw [hname, happrox]
              obtain ⟨sub1, hsub1, hfile1⟩ := ih _ _ _ sub2 hsub2 hinv log1
              obtain ⟨hmerr, hmok, _⟩ := walk_mirror sched fs2 ign hwell _ _ _ _ sub2 hsub2 hinv
              obtain ⟨r1a, hr1a, hfiles⟩ := hrest sub2.log r2a hr2a sub1.log
              rw [hsub1]
              simp only [hr1a]
              refine ⟨_, rfl, ?_⟩
              simp only
              rw [insertAt_map, hfiles]
              congr 1
              rw [hfile1]
              cases hl : listing fs2 ign (Join path e.Name) with
              | error msg =>
                rw [hmerr msg hl, blank_zero, blankBelow_zero]
                simp
              | ok es =>
                obtain ⟨files, hf, _⟩ := hmok es hl
                rw [hf]
                simp only [Option.isSome_some, if_true, blank_mk, Up.Path, hinv up rfl, true_and]
                by_cases hpd : Join path e.Name = d
                · simp [hpd]
                · simp [hpd, File.blankBelow, File.Name, File.Parent, File.Size, File.IsDir,
                    File.Files, blankList_eq_map]
    intro path parent log2 w2 h2 hinv log1
    simp only [walkSubFolderConcurrently, readDir_eq] at h2 ⊢
    by_cases hpd : path = d
    · subst hpd
      obtain ⟨msg, hmsg⟩ := herr
      have hl1 : listing fs1 ign path = .error msg := by simp [listing, hign, hmsg]
      rw [hl1]
      exact ⟨_, rfl, by simp⟩
    · rw [listing_same fs1 fs2 ign d hsame path hpd]
      simp only [hpd, if_false]
      cases hl : listing fs2 ign path with
      | error msg =>
        rw [hl] at h2
        simp only [Option.some.injEq] at h2
        subst h2
        exact ⟨_, rfl, by simp [blankBelow_zero]⟩
      | ok entries =>
        rw [hl] at h2
        simp only at h2 ⊢
        split at h2
        · exact absurd h2 (by simp)
        · rename_i r2 hr2
          simp only [Option.some.injEq] at h2
          subst h2
          have happrox : ∀ n, Join (Up.mk (if parent.isSome then (Split path).2
              else Join (Split path).1 (Split path).2) parent).Path n = Join path n := by
            intro n
            cases parent with
            | none => simp only [Option.isSome_none, Bool.false_eq_true, if_false, Up.Path]
                      exact Join_rootName path n
            | some up => simp only [Option.isSome_some, if_true, Up.Path]
                         rw [hinv up rfl]
          have hvalid : ∀ e ∈ entries, e.IsDir = true → validName e.Name = true := by
            refine readDir_entries_valid fs2 ign hwell path log2
              (if ign path then log2 else log2 ++ [path]) entries ?_
            rw [readDir_eq, hl]
          obtain ⟨r1, hr1, hfiles⟩ := hloop path _ entries happrox hvalid _ r2 hr2
            (if ign path = true then log1 else log1 ++ [path])
          rw [hr1]
          refine ⟨_, rfl, ?_⟩
          simp only [hfiles, File.blankBelow, File.Name, File.Parent, File.Size, File.IsDir,
            File.Files, blankList_eq_map]

theorem Size_blank_UpdateSize (d : String) (c : File)
    (h : c.IsDir = true → c.Path = d → c.Files = []) :
    (c.UpdateSize.blank d).Size = c.UpdateSize.Size := by
  cases c with
  | mk n p s dir fs =>
    cases dir
    · simp [UpdateSize_mk, blank_mk, File.Size]
    · simp only [UpdateSize_mk, if_true, blank_mk, true_and]
      by_cases hpd : (Up.mk n p).Path = d
      · have hfs : fs = [] := h rfl hpd
        subst hfs
        simp [hpd, File.Size, File.zero, accSize]
      · simp [hpd, File.Size]

mutual
theorem UpdateSize_blank : ∀ (d : String) (t : File), t.LeavesChildless →
    (∀ c ∈ t.nodes, c.IsDir = true → c.Path = d → c.Files = []) →
    (t.blank d).UpdateSize = t.UpdateSize.blank d
  | d, .mk n p s dir fs, hleaf, hd => by
    cases dir
    · have hfs : fs = [] := hleaf _ (mem_nodes_self _) rfl
      subst hfs
      simp [UpdateSize_mk, blank_mk]
    · by_cases hpd : (Up.mk n p).Path = d
      · have hfs : fs = [] := hd _ (mem_nodes_self _) rfl hpd
        subst hfs
        simp [UpdateSize_mk, blank_mk, hpd, File.zero]
      · have hl := UpdateSizeList_blank d fs
          (fun c hc m hm => hleaf m (mem_nodes.2 (Or.inr ⟨c, hc, hm⟩)))
          (fun c hc => hd c (by rw [nodes_mk]; exact List.mem_cons_of_mem _ hc))
        simp only [UpdateSize_mk, blank_mk, hpd, and_false, if_false, if_true, hl.1,
          accSize_zero, hl.2]
theorem UpdateSizeList_blank : ∀ (d : String) (fs : List File),
    (∀ c ∈ fs, c.LeavesChildless) →
    (∀ c ∈ nodesList fs, c.IsDir = true → c.Path = d → c.Files = []) →
    (fs.map (File.blank d)).map File.UpdateSize = (fs.map File.UpdateSize).map (File.blank d) ∧
    sumSizes ((fs.map File.UpdateSize).map (File.blank d)) = sumSizes (fs.map File.UpdateSize)
  | d, [], _, _ => by simp [sumSizes]
  | d, f :: rest, hleaf, hd => by
    have h1 := UpdateSize_blank d f (hleaf f (List.mem_cons_self _ _))
      (fun c hc => hd c (by simp only [nodesList, List.mem_append]; exact Or.inl hc))
    have h2 := UpdateSizeList_blank d rest (fun c hc => hleaf c (List.mem_cons_of_mem _ hc))
      (fun c hc => hd c (by simp only [nodesList, List.mem_append]; exact Or.inr hc))
    have h3 := Size_blank_UpdateSize d f
      (hd f (by simp only [nodesList, List.mem_append]; exact Or.inl (mem_nodes_self f)))
    constructor
    · simp only [List.map_cons, h1, h2.1]
    · have := h2.2
      simp only [sumSizes, List.map_cons, List.sum_cons, List.map_map] at this ⊢
      rw [this]
      simp only [Function.comp] at h3 ⊢
      rw [h3]
end

theorem UpdateSize_blankBelow (d : String) (t : File) (hleaf : t.LeavesChildless)
    (hd : ∀ c ∈ nodesList t.Files, c.IsDir = true → c.Path = d → c.Files = []) :
    (t.blankBelow d).UpdateSize = t.UpdateSize.blankBelow d := by
  cases t with
  | mk n p s dir fs =>
    simp only [File.Files] at hd
    cases dir
    · have hfs : fs = [] := hleaf _ (mem_nodes_self _) rfl
      subst hfs
      simp [UpdateSize_mk, File.blankBelow, File.Name, File.Parent, File.Size, File.IsDir,
        File.Files, blankList]
    · have hl := UpdateSizeList_blank d fs
        (fun c hc m hm => hleaf m (mem_nodes.2 (Or.inr ⟨c, hc, hm⟩))) hd
      simp only [UpdateSize_mk, File.blankBelow, File.Name, File.Parent, File.Size, File.IsDir,
        File.Files, blankList_eq_map, if_true, hl.1, accSize_zero, hl.2]


theorem emptyFs_wellNamed : emptyFs.WellNamed := by
  intro p es hp e he hd
  unfold emptyFs at hp
  split at hp
  · simp only [Except.ok.injEq] at hp
    subst hp
    simp only [List.mem_cons, List.mem_singleton, List.not_mem_nil, or_false] at he
    rcases he with h | h <;> subst h
    · simp at hd
    · decide
  · split at hp
    · simp only [Except.ok.injEq] at hp
      subst hp
      simp at he
    · simp at hp

theorem failingFs_emptyFs (p : String) (hp : p ≠ "/r/b") : failingFs p = emptyFs p := by
  unfold failingFs emptyFs
  simp [hp]

theorem failingFs_exampleFs (p : String) (hp : p ≠ "/r/b") : failingFs p = exampleFs p := by
  unfold failingFs exampleFs
  simp [hp]

/-- C5, amended: when the listing of a folder `d` that is not ignored fails, the
tree is the tree of the snapshot in which `d` is empty, but for the nodes of
`d`: each is `&File{}` (no `Name`, no `Parent`, `IsDir = false`) where the empty
folder has a directory node with its name and parent; both have `Size = 0` and
no `Files`, and every other node is the same in the two trees. -/
theorem WalkFolder_error_as_empty (sched : String → Nat) (fuel : Nat) (root : String)
    (fs1 fs2 : Snapshot) (ign : ShouldIgnoreFolder) (d : String) (w2 : Walked)
    (hwell : fs2.WellNamed) (hign : ign d = false) (herr : ∃ msg, fs1 d = .error msg)
    (hempty : fs2 d = .ok []) (hsame : ∀ p, p ≠ d → fs1 p = fs2 p)
    (h2 : WalkFolder sched fuel root fs2.readDir ign = some w2) :
    ∃ w1, WalkFolder sched fuel root fs1.readDir ign = some w1 ∧
      (root = d → w1.file = File.zero ∧
        w2.file = File.mk (Join (Split root).1 (Split root).2) none 0 true []) ∧
      (root ≠ d → w1.file = w2.file.blankBelow d) ∧
      (∀ c ∈ nodesList w2.file.Files, c.IsDir = true → c.Path = d →
        c.Size = 0 ∧ c.Files = []) := by
  have hlist : listing fs2 ign d = .ok [] := by simp [listing, hign, hempty]
  have hlast : ∀ c ∈ nodesList w2.file.Files, c.IsDir = true → c.Path = d →
      c.Size = 0 ∧ c.Files = [] := by
    intro c hc hcd hpath
    obtain ⟨_, _, hbelow, _⟩ := WalkFolder_mirror sched fuel root fs2 ign w2 hwell h2
    obtain ⟨es, hes, hperm⟩ := hbelow c hc hcd
    rw [hpath, hlist] at hes
    simp only [Except.ok.injEq] at hes
    subst hes
    have hfiles : c.Files = [] := by simpa using hperm
    have hsize := WalkFolder_sizes sched fuel root fs2.readDir ign w2 h2 c
      (mem_nodes_of_mem_nodesList hc) hcd
    rw [hfiles] at hsize
    exact ⟨by rw [hsize]; decide, hfiles⟩
  unfold WalkFolder at h2 ⊢
  split at h2
  · exact absurd h2 (by simp)
  · rename_i w0 hw0
    simp only [Option.some.injEq] at h2
    subst h2
    obtain ⟨w1, hw1, hfile⟩ := walk_two_runs sched fs1 fs2 ign d hwell hign herr hsame
      fuel root none [] w0 hw0 (by simp) []
    obtain ⟨_, hmok, hbelow⟩ := walk_mirror sched fs2 ign hwell _ _ _ _ w0 hw0 (by simp)
    rw [hw1]
    refine ⟨_, rfl, ?_, ?_, hlast⟩
    · intro hrd
      simp only [hrd, if_true] at hfile
      simp only [hfile]
      refine ⟨rfl, ?_⟩
      rw [hrd] at hmok
      obtain ⟨files, hf, hperm⟩ := hmok [] hlist
      have hfiles : files = [] := by simpa using hperm
      subst hfiles
      rw [hf, hrd]
      simp [UpdateSize_mk, accSize]
    · intro hrd
      simp only [hrd, if_false] at hfile
      simp only [hfile]
      apply UpdateSize_blankBelow d w0.file (walk_leavesChildless _ _ _ _ _ _ _ hw0)
      intro c hc hcd hpath
      obtain ⟨es, hes, hperm⟩ := hbelow c hc hcd
      rw [hpath, hlist] at hes
      simp only [Except.ok.injEq] at hes
      subst hes
      simpa using hperm

/-- C5, amended, on the example: a failing `/r/b` against an empty `/r/b`. -/
theorem WalkFolder_error_as_empty_witness :
    (∃ w2, WalkFolder atOnce 3 "/r" emptyFs.readDir ignoreNothing = some w2 ∧
      w2.file.blankBelow "/r/b" =
        .mk "/r" none 10 true [.mk "a" (some (.mk "/r" none)) 10 false [], File.zero]) ∧
    ∃ w1, WalkFolder atOnce 3 "/r" failingFs.readDir ignoreNothing = some w1 ∧
      ("/r" = "/r/b" → w1.file = File.zero ∧
        (File.mk "/r" none 10 true [.mk "a" (some (.mk "/r" none)) 10 false [],
          .mk "b" (some (.mk "/r" none)) 0 true []]) =
        File.mk (Join (Split "/r").1 (Split "/r").2) none 0 true []) ∧
      ("/r" ≠ "/r/b" → w1.file =
        (File.mk "/r" none 10 true [.mk "a" (some (.mk "/r" none)) 10 false [],
          .mk "b" (some (.mk "/r" none)) 0 true []]).blankBelow "/r/b") ∧
      (∀ c ∈ nodesList (File.mk "/r" none 10 true [.mk "a" (some (.mk "/r" none)) 10 false [],
          .mk "b" (some (.mk "/r" none)) 0 true []]).Files,
        c.IsDir = true → c.Path = "/r/b" → c.Size = 0 ∧ c.Files = []) :=
  ⟨⟨_, rfl, rfl⟩,
    WalkFolder_error_as_empty atOnce 3 "/r" failingFs emptyFs ignoreNothing "/r/b" _
      emptyFs_wellNamed rfl ⟨_, rfl⟩ rfl failingFs_emptyFs rfl⟩

/-- C5 fails as stated: the node of `/r/b` has the name `b` and `IsDir = true` when
its listing is empty, and no name and `IsDir = false` when its listing fails. -/
theorem WalkFolder_error_as_empty_counterexample :
    ∃ w1 w2, WalkFolder atOnce 3 "/r" failingFs.readDir ignoreNothing = some w1 ∧
      WalkFolder atOnce 3 "/r" emptyFs.readDir ignoreNothing = some w2 ∧
      w1.file.Files.map (fun c => (c.Name, c.Parent.isSome, c.IsDir)) =
        [("a", true, false), ("", false, false)] ∧
      w2.file.Files.map (fun c => (c.Name, c.Parent.isSome, c.IsDir)) =
        [("a", true, false), ("b", true, true)] ∧
      w1.file ≠ w2.file :=
  ⟨_, _, rfl, rfl, rfl, rfl, fun h =>
    absurd (congrArg (fun f => f.Files.map File.IsDir) h) (by decide)⟩

mutual
theorem blank_id : ∀ (d : String) (t : File),
    (∀ c ∈ t.nodes, ¬ (c.IsDir = true ∧ c.Path = d)) → t.blank d = t
  | d, .mk n p s dir fs, h => by
    have h0 := h _ (mem_nodes_self _)
    simp only [File.IsDir, File.Path, File.up, File.Name, File.Parent] at h0
    have hl := blankList_id d fs
      (fun c hc => h c (by rw [nodes_mk]; exact List.mem_cons_of_mem _ hc))
    rw [blank_mk, if_neg h0, hl]
theorem blankList_id : ∀ (d : String) (fs : List File),
    (∀ c ∈ nodesList fs, ¬ (c.IsDir = true ∧ c.Path = d)) → fs.map (File.blank d) = fs
  | d, [], _ => rfl
  | d, f :: rest, h => by
    simp only [List.map_cons]
    rw [blank_id d f (fun c hc => h c (by simp only [nodesList, List.mem_append]; exact Or.inl hc)),
      blankList_id d rest
        (fun c hc => h c (by simp only [nodesList, List.mem_append]; exact Or.inr hc))]
end

theorem no_d_of_UpdateSize (d : String) (fs : List File)
    (h : ∀ c ∈ nodesList (fs.map File.UpdateSize), ¬ (c.IsDir = true ∧ c.Path = d)) :
    ∀ c ∈ nodesList fs, ¬ (c.IsDir = true ∧ c.Path = d) := by
  intro c hc
  have hfr := UpdateSizeList_framed fs
  rw [UpdateSizeList_eq_map] at hfr
  obtain ⟨m, hm, hcm⟩ := FramedList.nodesList_inv fs _ hfr c hc
  have := h m hm
  rw [hcm.fields.2.2.1, hcm.path] at this
  exact this

mutual
theorem UpdateSize_outside : ∀ (d : String) (t : File), t.LeavesChildless →
    (t.blank d).UpdateSize.Outside d t.UpdateSize
  | d, .mk n p s dir fs, hleaf => by
    cases dir
    · have hfs : fs = [] := hleaf _ (mem_nodes_self _) rfl
      subst hfs
      simp [UpdateSize_mk, blank_mk, File.Outside, OutsideList, File.Name, File.Parent,
        File.IsDir, File.Size, File.Files]
    · have hl := UpdateSizeList_outside d fs
        (fun c hc m hm => hleaf m (mem_nodes.2 (Or.inr ⟨c, hc, hm⟩)))
      by_cases hpd : (Up.mk n p).Path = d
      · simp [UpdateSize_mk, blank_mk, hpd, File.Outside, File.zero]
      · simp only [UpdateSize_mk, blank_mk, hpd, and_false, if_false, if_true, File.Outside,
          File.Name, File.Parent, File.IsDir, File.Size, File.Files, true_and]
        refine ⟨?_, hl⟩
        intro hno
        rw [blankList_id d fs (no_d_of_UpdateSize d fs hno)]
theorem UpdateSizeList_outside : ∀ (d : String) (fs : List File),
    (∀ c ∈ fs, c.LeavesChildless) →
    OutsideList d ((fs.map (File.blank d)).map File.UpdateSize) (fs.map File.UpdateSize)
  | d, [], _ => by simp [OutsideList]
  | d, f :: rest, hleaf => by
    simp only [List.map_cons, OutsideList]
    exact ⟨_, _, rfl, UpdateSize_outside d f (hleaf f (List.mem_cons_self _ _)),
      UpdateSizeList_outside d rest (fun c hc => hleaf c (List.mem_cons_of_mem _ hc))⟩
end

theorem UpdateSize_outsideBelow (d : String) (t : File) (hleaf : t.LeavesChildless) :
    (t.blankBelow d).UpdateSize.OutsideBelow d t.UpdateSize := by
  cases t with
  | mk n p s dir fs =>
    cases dir
    · have hfs : fs = [] := hleaf _ (mem_nodes_self _) rfl
      subst hfs
      simp [UpdateSize_mk, File.blankBelow, File.OutsideBelow, OutsideList, File.Name,
        File.Parent, File.IsDir, File.Size, File.Files, blankList]
    · have hl := UpdateSizeList_outside d fs
        (fun c hc m hm => hleaf m (mem_nodes.2 (Or.inr ⟨c, hc, hm⟩)))
      simp only [UpdateSize_mk, File.blankBelow, File.OutsideBelow, File.Name, File.Parent,
        File.IsDir, File.Size, File.Files, blankList_eq_map, if_true, true_and]
      refine ⟨?_, hl⟩
      intro hno
      rw [blankList_id d fs (no_d_of_UpdateSize d fs hno)]

mutual
/-- A tree that holds no directory node with the path `d` is left as it is. -/
theorem Outside_eq : ∀ (d : String) (t2 t1 : File), t1.Outside d t2 →
    (∀ c ∈ t2.nodes, ¬ (c.IsDir = true ∧ c.Path = d)) → t1 = t2
  | d, .mk n p s dir fs, t1, h, hno => by
    have h0 := hno _ (mem_nodes_self _)
    simp only [File.IsDir, File.Path, File.up, File.Name, File.Parent] at h0
    simp only [File.Outside, if_neg h0] at h
    obtain ⟨h1, h2, h3, h4, h5⟩ := h
    have hno2 : ∀ c ∈ nodesList fs, ¬ (c.IsDir = true ∧ c.Path = d) :=
      fun c hc => hno c (by rw [nodes_mk]; exact List.mem_cons_of_mem _ hc)
    have h6 := OutsideList_eq d fs t1.Files h5 hno2
    cases t1 with
    | mk a b c e f =>
      simp only [File.Name, File.Parent, File.IsDir, File.Size, File.Files] at h1 h2 h3 h4 h6
      rw [h1, h2, h3, h4 hno2, h6]
theorem OutsideList_eq : ∀ (d : String) (l2 l1 : List File), OutsideList d l1 l2 →
    (∀ c ∈ nodesList l2, ¬ (c.IsDir = true ∧ c.Path = d)) → l1 = l2
  | d, [], l1, h, _ => by
    simp only [OutsideList] at h
    exact h
  | d, g :: gs, l1, h, hno => by
    simp only [OutsideList] at h
    obtain ⟨f, fs1, hl, hf, hr⟩ := h
    rw [hl, Outside_eq d g f hf
        (fun c hc => hno c (by simp only [nodesList, List.mem_append]; exact Or.inl hc)),
      OutsideList_eq d gs fs1 hr
        (fun c hc => hno c (by simp only [nodesList, List.mem_append]; exact Or.inr hc))]
end


theorem wellNamed_of_same (fs1 fs2 : Snapshot) (d : String) (hwell : fs2.WellNamed)
    (herr : ∃ msg, fs1 d = .error msg) (hsame : ∀ p, p ≠ d → fs1 p = fs2 p) :
    fs1.WellNamed := by
  intro p es hp
  have hpd : p ≠ d := by
    intro h
    subst h
    obtain ⟨msg, hmsg⟩ := herr
    rw [hmsg] at hp
    simp at hp
  rw [hsame p hpd] at hp
  exact hwell p es hp

theorem WalkFolder_of_walk (sched : String → Nat) (fuel : Nat) (root : String) (rd : ReadDir)
    (ign : ShouldIgnoreFolder) (w0 : Walked)
    (h : walkSubFolderConcurrently sched (ignoringReadDir ign rd) fuel root none [] = some w0) :
    WalkFolder sched fuel root rd ign = some ⟨w0.file.UpdateSize, w0.log, w0.progress⟩ := by
  unfold WalkFolder
  rw [h]

/-- C4: on a finite snapshot, with enough fuel, `WalkFolder` returns a tree when
the listing of a folder `d` fails, as it does for any snapshot that differs at
`d` only. If `d` is the root the tree is `&File{}`. If not, the tree is the other
tree outside of `d`: `&File{}`, of size 0 and without children, stands for `d`,
every other node has the same `Name`, `Parent`, `IsDir` and number of children,
and every subtree that does not hold `d` is identical. The node of the folder
in whose listing `d` is found has one child for every entry of that listing,
`&File{}` among them. -/
theorem WalkFolder_failure_contained (sched : String → Nat) (fuel : Nat) (root : String)
    (fs1 fs2 : Snapshot) (ign : ShouldIgnoreFolder) (d : String) (height : String → Nat)
    (hwell : fs2.WellNamed) (hshallow : Shallow fs2 ign height) (hfuel : height root < fuel)
    (hign : ign d = false) (herr : ∃ msg, fs1 d = .error msg)
    (hsame : ∀ p, p ≠ d → fs1 p = fs2 p) :
    ∃ w1 w2, WalkFolder sched fuel root fs1.readDir ign = some w1 ∧
      WalkFolder sched fuel root fs2.readDir ign = some w2 ∧
      (root = d → w1.file = File.zero) ∧
      (root ≠ d → w1.file.OutsideBelow d w2.file) ∧
      (∀ p es e, Reached fs1 ign root p → listing fs1 ign p = .ok es → e ∈ es →
        e.IsDir = true → Join p e.Name = d →
        ∃ m ∈ w1.file.nodes, m.IsDir = true ∧ (∀ n, Join m.Path n = Join p n) ∧
          m.Files.length = es.length ∧ File.zero ∈ m.Files) := by
  obtain ⟨w0, hw0⟩ := walk_returns sched fs2 ign height hshallow fuel root none [] hfuel
  obtain ⟨v0, hv0, hfile⟩ := walk_two_runs sched fs1 fs2 ign d hwell hign herr hsame
    fuel root none [] w0 hw0 (by simp) []
  have h1 := WalkFolder_of_walk sched fuel root fs1.readDir ign v0 hv0
  have h2 := WalkFolder_of_walk sched fuel root fs2.readDir ign w0 hw0
  refine ⟨_, _, h1, h2, ?_, ?_, ?_⟩
  · intro hrd
    simp only [hrd, if_true] at hfile
    simp only [hfile]
    rfl
  · intro hrd
    simp only [hrd, if_false] at hfile
    simp only [hfile]
    exact UpdateSize_outsideBelow d w0.file (walk_leavesChildless _ _ _ _ _ _ _ hw0)
  · intro p es e hp hes he hd hjoin
    have hwell1 := wellNamed_of_same fs1 fs2 d hwell herr hsame
    obtain ⟨m, hm, hmd, happrox, hperm⟩ :=
      node_of_reached sched fuel root fs1 ign _ hwell1 h1 p hp es hes
    obtain ⟨_, _, _, hleaves⟩ := WalkFolder_mirror sched fuel root fs1 ign _ hwell1 h1
    refine ⟨m, hm, hmd, happrox, ?_, ?_⟩
    · have := hperm.length_eq
      simpa using this
    · obtain ⟨msg, hmsg⟩ := herr
      have hl : listing fs1 ign (Join p e.Name) = .error msg := by
        rw [hjoin]
        simp [listing, hign, hmsg]
      have hexp : expected fs1 ign m.up p e = ⟨"", none, false, 0⟩ := by
        simp [expected, hd, hl]
      have hmem : expected fs1 ign m.up p e ∈ m.Files.map File.skeleton :=
        hperm.mem_iff.2 (List.mem_map.2 ⟨e, he, rfl⟩)
      obtain ⟨c, hc, hsk⟩ := List.mem_map.1 hmem
      rw [hexp] at hsk
      have hcd : c.IsDir = false := by
        simp only [File.skeleton, Skeleton.mk.injEq] at hsk
        exact hsk.2.2.1
      have hcz := eq_zero_of_skeleton hsk
        (hleaves c (mem_nodes_of_mem_nodesList (child_mem_nodesList hm hc)) hcd)
      rw [← hcz]
      exact hc


theorem exampleFs_shallow : Shallow exampleFs ignoreNothing exampleHeight := by
  intro p es hp e he hd
  simp only [listing, ignoreNothing, Bool.false_eq_true, if_false] at hp
  unfold exampleFs at hp
  split at hp
  · rename_i hpr
    simp only [Except.ok.injEq] at hp
    subst hp hpr
    simp only [List.mem_cons, List.mem_singleton, List.not_mem_nil, or_false] at he
    rcases he with h | h <;> subst h
    · simp at hd
    · decide
  · split at hp
    · simp only [Except.ok.injEq] at hp
      subst hp
      simp only [List.mem_singleton] at he
      subst he
      simp at hd
    · simp at hp

/-- C4, on the example: when the listing of `/r/b` fails the root has size 10 and
two children, the file `a` and `&File{}`. -/
theorem WalkFolder_failure_contained_witness :
    (WalkFolder atOnce 3 "/r" failingFs.readDir ignoreNothing).map (fun w => w.file) =
      some (.mk "/r" none 10 true [.mk "a" (some (.mk "/r" none)) 10 false [], File.zero]) ∧
    ∃ w1 w2, WalkFolder atOnce 3 "/r" failingFs.readDir ignoreNothing = some w1 ∧
      WalkFolder atOnce 3 "/r" exampleFs.readDir ignoreNothing = some w2 ∧
      ("/r" = "/r/b" → w1.file = File.zero) ∧
      ("/r" ≠ "/r/b" → w1.file.OutsideBelow "/r/b" w2.file) ∧
      (∀ p es e, Reached failingFs ignoreNothing "/r" p →
        listing failingFs ignoreNothing p = .ok es → e ∈ es →
        e.IsDir = true → Join p e.Name = "/r/b" →
        ∃ m ∈ w1.file.nodes, m.IsDir = true ∧ (∀ n, Join m.Path n = Join p n) ∧
          m.Files.length = es.length ∧ File.zero ∈ m.Files) :=
  ⟨rfl, WalkFolder_failure_contained atOnce 3 "/r" failingFs exampleFs ignoreNothing "/r/b"
    exampleHeight exampleFs_wellNamed exampleFs_shallow (by decide) rfl ⟨_, rfl⟩
    failingFs_exampleFs⟩

/-! ## The bound on the active goroutines -/

theorem count_set_of_ne (l : List Phase) (i : Nat) (a b : Phase) (hget : l.get? i = some a)
    (hab : a ≠ Phase.active) (hb : b = Phase.active) :
    (l.set i b).count Phase.active = l.count Phase.active + 1 := by
  subst hb
  induction l generalizing i with
  | nil => simp at hget
  | cons x xs ih =>
    cases i with
    | zero =>
      simp only [List.get?_cons_zero, Option.some.injEq] at hget
      subst hget
      simp [List.set, List.count_cons, hab]
    | succ j =>
      simp only [List.get?_cons_succ] at hget
      simp only [List.set, List.count_cons, ih j hget]
      omega

theorem count_set_to_finished (l : List Phase) (i : Nat)
    (hget : l.get? i = some Phase.active) :
    (l.set i Phase.finished).count Phase.active + 1 = l.count Phase.active := by
  induction l generalizing i with
  | nil => simp at hget
  | cons x xs ih =>
    cases i with
    | zero =>
      simp only [List.get?_cons_zero, Option.some.injEq] at hget
      subst hget
      simp [List.set, List.count_cons]
    | succ j =>
      simp only [List.get?_cons_succ] at hget
      simp only [List.set, List.count_cons]
      have := ih j hget
      omega

theorem Slots.step_invariant (capacity : Nat) (s s1 : Slots) (ev : Event)
    (hstep : s.step capacity ev = some s1)
    (hinv : s.activeTasks = s.buffered ∧ s.buffered ≤ capacity) :
    s1.activeTasks = s1.buffered ∧ s1.buffered ≤ capacity := by
  obtain ⟨h1, h2⟩ := hinv
  unfold Slots.activeTasks at h1 ⊢
  cases ev with
  | spawn parent =>
    cases parent with
    | none =>
      simp only [Slots.step, Option.some.injEq] at hstep
      subst hstep
      simp [List.count_append, h1, h2]
    | some p =>
      simp only [Slots.step] at hstep
      split at hstep
      · simp only [Option.some.injEq] at hstep
        subst hstep
        simp [List.count_append, h1, h2]
      · simp at hstep
  | send task =>
    simp only [Slots.step] at hstep
    split at hstep
    · rename_i hc
      simp only [Option.some.injEq] at hstep
      subst hstep
      simp only
      rw [count_set_of_ne s.tasks task Phase.waiting Phase.active hc.1 (by decide) rfl]
      omega
    · simp at hstep
  | receive task =>
    simp only [Slots.step] at hstep
    split at hstep
    · rename_i hc
      simp only [Option.some.injEq] at hstep
      subst hstep
      simp only
      have := count_set_to_finished s.tasks task hc.1
      omega
    · simp at hstep

theorem Slots.run_invariant (capacity : Nat) (events : List Event) :
    ∀ (s s1 : Slots), s.run capacity events = some s1 →
      s.activeTasks = s.buffered ∧ s.buffered ≤ capacity →
      s1.activeTasks = s1.buffered ∧ s1.buffered ≤ capacity := by
  induction events with
  | nil =>
    intro s s1 h hinv
    simp only [Slots.run, Option.some.injEq] at h
    subst h
    exact hinv
  | cons ev rest ih =>
    intro s s1 h hinv
    simp only [Slots.run] at h
    split at h
    · simp at h
    · rename_i s2 hs2
      exact ih s2 s1 h (Slots.step_invariant capacity s s2 ev hs2 hinv)

/-- C8: in every execution of the goroutines of a walk, from the making of the
channel `c` with capacity `2 * runtime.NumCPU()`, the number of goroutines that
are between their `c <- true` and their `<-c` is the number of values in the
buffer of `c`, and is at most `2 * runtime.NumCPU()`. -/
theorem semaphore_bound (numCPU : Nat) (events : List Event) (s : Slots)
    (h : Slots.init.run (2 * numCPU) events = some s) :
    s.activeTasks ≤ 2 * numCPU ∧ s.activeTasks = s.buffered := by
  have := Slots.run_invariant (2 * numCPU) events Slots.init s h
    ⟨rfl, Nat.zero_le _⟩
  exact ⟨by omega, this.1⟩

/-- C8, on one CPU: three goroutines are started, two get a slot, the third
cannot send before one of them has received. -/
theorem semaphore_bound_witness :
    Slots.init.run (2 * 1)
      [.spawn none, .spawn none, .send 0, .spawn (some 0), .send 1, .send 2] = none ∧
    Slots.init.run (2 * 1)
      [.spawn none, .spawn none, .send 0, .spawn (some 0), .send 1, .receive 0, .send 2]
        = some ⟨2, [Phase.finished, Phase.active, Phase.active]⟩ ∧
    (Slots.mk 2 [Phase.finished, Phase.active, Phase.active]).activeTasks ≤ 2 * 1 ∧
    (Slots.mk 2 [Phase.finished, Phase.active, Phase.active]).activeTasks =
      (Slots.mk 2 [Phase.finished, Phase.active, Phase.active]).buffered :=
  ⟨rfl, rfl,
    semaphore_bound 1
      [.spawn none, .spawn none, .send 0, .spawn (some 0), .send 1, .receive 0, .send 2]
      ⟨2, [Phase.finished, Phase.active, Phase.active]⟩ rfl⟩

end Godu
